import Mathlib

/-!
Verification development for the identifier-renaming engine of the humanify
repository.  The embedding follows
`src/plugins/local-llm-rename/batch-visit-all-indentifiers.ts`: pure string
helpers (`endWithNumber`, `getSuffixNumber`, `renameConflictIndentier`), the
`@babel/types` `toIdentifier` normalizer used by `applyRenameMap`, the
collision-resolution loop, the scope/binding tree on which renames are
applied, the grouping / small-scope-merging / batch-splitting pipeline, and
the batch-processing main loop with its progress callback trace.  The babel
parser, printer and context extractor are external capabilities (spec 6.1)
and are taken as parameters of the engine model.
-/

namespace Humanify

/-- ASCII decimal digit test: the regex character class `\d` of the source,
which only ever runs on identifier text. -/
def isAsciiDigit (c : Char) : Bool :=
  48 ≤ c.toNat && c.toNat ≤ 57

/-- Embedding of `endWithNumber` (src line 59): `/\d$/.test(name)`. -/
def endWithNumber (name : String) : Bool :=
  match name.data.getLast? with
  | some c => isAsciiDigit c
  | none => false

/-- Trailing digit run of a character list (the match of `/(\d+)$/`). -/
def tdl (l : List Char) : List Char :=
  (l.reverse.takeWhile isAsciiDigit).reverse

/-- The character list with its trailing digit run removed. -/
def sdl (l : List Char) : List Char :=
  (l.reverse.dropWhile isAsciiDigit).reverse

/-- Trailing digits of a string, as matched by `/(\d+)$/`. -/
def trailingDigits (s : String) : List Char := tdl s.data

/-- The string with its trailing digit run removed (what
`name.replace(/(\d+)$/, …)` keeps). -/
def stripTrailingDigits (s : String) : String := ⟨sdl s.data⟩

/-- `parseInt(ds, 10)` on a digit-only character list (0 on the empty list,
matching the `match ? parseInt : 0` fallback of `getSuffixNumber`). -/
def digitsToNat (ds : List Char) : Nat :=
  ds.foldl (fun a c => 10 * a + (c.toNat - 48)) 0

/-- Embedding of `getSuffixNumber` (src line 63): the numeric value of the
trailing digit run, 0 when there is none. -/
def getSuffixNumber (name : String) : Nat :=
  digitsToNat (trailingDigits name)

/-- Decimal digit character for a value below 10. -/
def digitChar10 (d : Nat) : Char := Char.ofNat (48 + d)

/-- Decimal representation, fuelled so that it is structurally recursive
(the fallback branch is unreachable because the value strictly shrinks by a
factor of ten per step). -/
def natToDigitsAux : Nat → Nat → List Char
  | 0, n => [digitChar10 (n % 10)]
  | fuel + 1, n =>
    if n < 10 then [digitChar10 n]
    else natToDigitsAux fuel (n / 10) ++ [digitChar10 (n % 10)]

/-- Decimal representation of a natural number as a character list, as
produced by JavaScript `Number.prototype.toString` on a non-negative
integer. -/
def natToDigits (n : Nat) : List Char :=
  natToDigitsAux n n

/-- Embedding of `renameConflictIndentier` (src lines 69-75): if the name
ends in digits, the trailing digit run `d` is replaced by the decimal
representation of `d + 1`; otherwise `"1"` is appended. -/
def renameConflictIndentier (name : String) : String :=
  if endWithNumber name then
    ⟨sdl name.data ++ natToDigits (getSuffixNumber name + 1)⟩
  else
    name ++ "1"

/-- ASCII identifier character: the class `[a-zA-Z0-9$_]` kept by
`toIdentifier` of `@babel/types`. -/
def isIdentCharAscii (c : Char) : Bool :=
  (65 ≤ c.toNat && c.toNat ≤ 90) || (97 ≤ c.toNat && c.toNat ≤ 122) ||
    isAsciiDigit c || c == '$' || c == '_'

/-- ASCII identifier start character: a letter, `$` or `_`. -/
def isIdentStartAscii (c : Char) : Bool :=
  (65 ≤ c.toNat && c.toNat ≤ 90) || (97 ≤ c.toNat && c.toNat ≤ 122) ||
    c == '$' || c == '_'

/-- First replacement of `toIdentifier`: every character outside
`[a-zA-Z0-9$_]` becomes a dash. -/
def toIdentStep1 (l : List Char) : List Char :=
  l.map (fun c => if isIdentCharAscii c then c else '-')

/-- Second replacement of `toIdentifier`: leading dashes and digits are
removed (`name.replace(/^[-0-9]+/, "")`). -/
def toIdentStep2 (l : List Char) : List Char :=
  l.dropWhile (fun c => c == '-' || isAsciiDigit c)

mutual

/-- Camel-casing pass of `toIdentifier`
(`name.replace(/[-\s]+(.)?/g, (m, c) => c ? c.toUpperCase() : "")`); after
`toIdentStep1` no whitespace remains, so only dash runs are collapsed. -/
def camelMain : List Char → List Char
  | [] => []
  | c :: rest => if c == '-' then camelUpper rest else c :: camelMain rest

/-- Inside a dash run: skip further dashes, uppercase the first following
character. -/
def camelUpper : List Char → List Char
  | [] => []
  | c :: rest => if c == '-' then camelUpper rest else c.toUpper :: camelMain rest

end

/-- JavaScript reserved words rejected by `isValidIdentifier` of
`@babel/helper-validator-identifier` (keywords plus strict-mode reserved
words). -/
def reservedWords : List String :=
  ["break", "case", "catch", "continue", "debugger", "default", "do", "else",
   "finally", "for", "function", "if", "return", "switch", "throw", "try",
   "var", "const", "while", "with", "new", "this", "super", "class",
   "extends", "export", "import", "null", "true", "false", "in",
   "instanceof", "typeof", "void", "delete", "implements", "interface",
   "let", "package", "private", "protected", "public", "static", "yield",
   "enum", "await"]

/-- Validity check of `toIdentifier`: a nonempty ASCII identifier that is not
a reserved word. -/
def isValidIdentifierM (l : List Char) : Bool :=
  match l with
  | [] => false
  | c :: rest =>
    isIdentStartAscii c && rest.all isIdentCharAscii &&
      !(reservedWords.contains (⟨l⟩ : String))

/-- Embedding of `toIdentifier` of `@babel/types`, called by
`applyRenameMap` (src line 301) to normalize a visitor-proposed name:
invalid characters become dashes, leading dashes/digits are stripped, dash
runs camel-case the following character, an invalid result gets a leading
underscore, and an empty result falls back to `"_"`. -/
def toIdentifier (input : String) : String :=
  let n2 := toIdentStep2 (toIdentStep1 input.data)
  let n3 := camelMain n2
  let n4 := if isValidIdentifierM n3 then n3 else '_' :: n3
  if n4.isEmpty then "_" else ⟨n4⟩

/-- Hard-coded list `WEB_API_NAMES_LIST` (src lines 15-42) of built-in
Web/Node globals that a rename must avoid. -/
def WEB_API_NAMES_LIST : List String :=
  ["Headers", "Set", "Map", "FormData", "URL", "URLSearchParams", "Blob",
   "TextEncoder", "TextDecoder", "ReadableStream", "WritableStream",
   "TransformStream", "Response", "Request", "ArrayBuffer", "DataView",
   "Uint8Array", "Uint16Array", "Uint32Array", "Int8Array", "Int16Array",
   "Int32Array", "Float32Array", "Float64Array", "Promise", "fetch"]

/-- Fuelled embedding of the collision-resolution `while` loop of
`applyRenameMap` (src lines 303-317): bump the candidate with
`renameConflictIndentier` until it is no longer taken.  `none` means the
fuel ran out; `findSafeName_isSome` shows that with fuel
`(support set) + 2` this never happens, matching the source's unbounded
loop. -/
def findSafeName (taken : String → Bool) : Nat → String → Option String
  | 0, _ => none
  | fuel + 1, n =>
    if taken n then findSafeName taken fuel (renameConflictIndentier n)
    else some n

/-! Lemmas about decimal representations and the trailing-digit helpers. -/

theorem isAsciiDigit_digitChar10 {d : Nat} (h : d < 10) :
    isAsciiDigit (digitChar10 d) = true := by
  interval_cases d <;> decide

theorem toNat_digitChar10 {d : Nat} (h : d < 10) :
    (digitChar10 d).toNat = 48 + d := by
  interval_cases d <;> decide

theorem natToDigitsAux_all_digit :
    ∀ (fuel n : Nat), ∀ c ∈ natToDigitsAux fuel n, isAsciiDigit c = true := by
  intro fuel
  induction fuel with
  | zero =>
    intro n c hc
    rw [natToDigitsAux, List.mem_singleton] at hc
    subst hc
    exact isAsciiDigit_digitChar10 (Nat.mod_lt _ (by norm_num))
  | succ fuel ih =>
    intro n c hc
    rw [natToDigitsAux] at hc
    by_cases h : n < 10
    · rw [if_pos h, List.mem_singleton] at hc
      subst hc
      exact isAsciiDigit_digitChar10 h
    · rw [if_neg h] at hc
      rcases List.mem_append.mp hc with h1 | h2
      · exact ih (n / 10) c h1
      · rw [List.mem_singleton] at h2
        subst h2
        exact isAsciiDigit_digitChar10 (Nat.mod_lt _ (by norm_num))

theorem natToDigits_all_digit (n : Nat) :
    ∀ c ∈ natToDigits n, isAsciiDigit c = true :=
  natToDigitsAux_all_digit n n

theorem natToDigits_ne_nil (n : Nat) : natToDigits n ≠ [] := by
  unfold natToDigits
  cases n with
  | zero => simp [natToDigitsAux]
  | succ m =>
    rw [natToDigitsAux]
    split
    · simp
    · simp

theorem digitsToNat_append_singleton (ds : List Char) (c : Char) :
    digitsToNat (ds ++ [c]) = 10 * digitsToNat ds + (c.toNat - 48) := by
  simp [digitsToNat, List.foldl_append]

theorem digitsToNat_natToDigitsAux :
    ∀ (fuel n : Nat), n ≤ fuel → digitsToNat (natToDigitsAux fuel n) = n := by
  intro fuel
  induction fuel with
  | zero =>
    intro n hn
    have : n = 0 := Nat.le_zero.mp hn
    subst this
    simp [natToDigitsAux, digitsToNat, toNat_digitChar10 (by norm_num : (0 : Nat) < 10)]
  | succ fuel ih =>
    intro n hn
    rw [natToDigitsAux]
    by_cases h : n < 10
    · rw [if_pos h]
      simp [digitsToNat, toNat_digitChar10 h]
    · rw [if_neg h]
      have hdiv : n / 10 ≤ fuel := by
        have h1 : n / 10 < n := Nat.div_lt_self (by omega) (by norm_num)
        omega
      rw [digitsToNat_append_singleton, ih (n / 10) hdiv,
        toNat_digitChar10 (Nat.mod_lt _ (by norm_num))]
      omega

theorem digitsToNat_natToDigits (n : Nat) :
    digitsToNat (natToDigits n) = n :=
  digitsToNat_natToDigitsAux n n (Nat.le_refl n)

theorem natToDigits_injective : Function.Injective natToDigits := by
  intro a b hab
  have := congrArg digitsToNat hab
  simpa [digitsToNat_natToDigits] using this

/-! Lemmas about the trailing-digit split `sdl` / `tdl`. -/

theorem takeWhile_append_all {α : Type} {P : α → Bool} :
    ∀ {xs ys : List α}, (∀ c ∈ xs, P c = true) →
      (xs ++ ys).takeWhile P = xs ++ ys.takeWhile P := by
  intro xs
  induction xs with
  | nil => intro ys _; rfl
  | cons x xs ih =>
    intro ys h
    have hx : P x = true := h x (by simp)
    simp only [List.cons_append, List.takeWhile_cons, hx]
    rw [ih (fun c hc => h c (by simp [hc]))]
    simp

theorem dropWhile_append_all {α : Type} {P : α → Bool} :
    ∀ {xs ys : List α}, (∀ c ∈ xs, P c = true) →
      (xs ++ ys).dropWhile P = ys.dropWhile P := by
  intro xs
  induction xs with
  | nil => intro ys _; rfl
  | cons x xs ih =>
    intro ys h
    have hx : P x = true := h x (by simp)
    simp only [List.cons_append, List.dropWhile_cons, hx]
    exact ih (fun c hc => h c (by simp [hc]))

theorem takeWhile_eq_nil_of_head {α : Type} {P : α → Bool} {l : List α}
    (h : ∀ c, l.head? = some c → P c = false) : l.takeWhile P = [] := by
  cases l with
  | nil => rfl
  | cons x xs =>
    have := h x rfl
    simp [List.takeWhile_cons, this]

theorem dropWhile_eq_self_of_head {α : Type} {P : α → Bool} {l : List α}
    (h : ∀ c, l.head? = some c → P c = false) : l.dropWhile P = l := by
  cases l with
  | nil => rfl
  | cons x xs =>
    have := h x rfl
    simp [List.dropWhile_cons, this]

theorem dropWhile_head_not {α : Type} {P : α → Bool} :
    ∀ {l : List α} {c : α}, (l.dropWhile P).head? = some c → P c = false := by
  intro l
  induction l with
  | nil => intro c h; simp [List.dropWhile] at h
  | cons x xs ih =>
    intro c h
    by_cases hx : P x = true
    · rw [List.dropWhile_cons, if_pos hx] at h
      exact ih h
    · rw [List.dropWhile_cons, if_neg hx] at h
      simp at h
      subst h
      exact Bool.eq_false_iff.mpr hx

/-- The list tail contains no digit in its last position. -/
def NonDigitTail (l : List Char) : Prop :=
  ∀ c, l.getLast? = some c → isAsciiDigit c = false

theorem nonDigitTail_sdl (l : List Char) : NonDigitTail (sdl l) := by
  intro c hc
  unfold sdl at hc
  rw [List.getLast?_reverse] at hc
  exact dropWhile_head_not hc

theorem sdl_append_tdl (l : List Char) : sdl l ++ tdl l = l := by
  unfold sdl tdl
  rw [← List.reverse_append, List.takeWhile_append_dropWhile, List.reverse_reverse]

theorem tdl_of_append {p ds : List Char} (hp : NonDigitTail p)
    (hds : ∀ c ∈ ds, isAsciiDigit c = true) : tdl (p ++ ds) = ds := by
  unfold tdl
  rw [List.reverse_append]
  rw [takeWhile_append_all (fun c hc => hds c (List.mem_reverse.mp hc))]
  rw [takeWhile_eq_nil_of_head (fun c hc => hp c (by rwa [List.head?_reverse] at hc))]
  simp

theorem sdl_of_append {p ds : List Char} (hp : NonDigitTail p)
    (hds : ∀ c ∈ ds, isAsciiDigit c = true) : sdl (p ++ ds) = p := by
  unfold sdl
  rw [List.reverse_append]
  rw [dropWhile_append_all (fun c hc => hds c (List.mem_reverse.mp hc))]
  rw [dropWhile_eq_self_of_head (fun c hc => hp c (by rwa [List.head?_reverse] at hc))]
  simp

/-! Structure of the conflict-bumping sequence. -/

theorem endWithNumber_append_digits (p : List Char) (m : Nat) :
    endWithNumber ⟨p ++ natToDigits m⟩ = true := by
  unfold endWithNumber
  have hne := natToDigits_ne_nil m
  have : (p ++ natToDigits m).getLast? = (natToDigits m).getLast? :=
    List.getLast?_append_of_ne_nil p hne
  rw [show (String.mk (p ++ natToDigits m)).data = p ++ natToDigits m from rfl, this]
  obtain ⟨c, hc⟩ := List.getLast?_isSome.mpr hne |> Option.isSome_iff_exists.mp
  rw [hc]
  have hmem : c ∈ natToDigits m := by
    obtain ⟨h2, rfl⟩ := List.mem_getLast?_eq_getLast (Option.mem_def.mpr hc)
    exact List.getLast_mem h2
  exact natToDigits_all_digit m c hmem

theorem renameConflictIndentier_form {p : List Char} {m : Nat}
    (hp : NonDigitTail p) :
    renameConflictIndentier ⟨p ++ natToDigits m⟩ = ⟨p ++ natToDigits (m + 1)⟩ := by
  unfold renameConflictIndentier
  rw [if_pos (endWithNumber_append_digits p m)]
  have hdata : (String.mk (p ++ natToDigits m)).data = p ++ natToDigits m := rfl
  have hall := natToDigits_all_digit m
  rw [show getSuffixNumber ⟨p ++ natToDigits m⟩ =
      digitsToNat (tdl (p ++ natToDigits m)) from rfl]
  rw [hdata, sdl_of_append hp hall, tdl_of_append hp hall, digitsToNat_natToDigits]

/-- The sequence of candidate names tried by the collision loop after the
initial candidate: `bumps n k` is the candidate after `k + 1` applications
of `renameConflictIndentier`. -/
def bumps (n : String) : Nat → String
  | 0 => renameConflictIndentier n
  | k + 1 => renameConflictIndentier (bumps n k)

theorem bumps_shift (n : String) :
    ∀ k, bumps n (k + 1) = bumps (renameConflictIndentier n) k := by
  intro k
  induction k with
  | zero => rfl
  | succ k ih => show renameConflictIndentier (bumps n (k + 1)) = _; rw [ih]; rfl

theorem bumps_zero_form (n : String) :
    ∃ p m, NonDigitTail p ∧ (bumps n 0) = ⟨p ++ natToDigits m⟩ := by
  show ∃ p m, NonDigitTail p ∧ renameConflictIndentier n = ⟨p ++ natToDigits m⟩
  unfold renameConflictIndentier
  by_cases h : endWithNumber n = true
  · rw [if_pos h]
    exact ⟨sdl n.data, getSuffixNumber n + 1, nonDigitTail_sdl n.data, rfl⟩
  · rw [if_neg h]
    refine ⟨n.data, 1, ?_, ?_⟩
    · intro c hc
      unfold endWithNumber at h
      rw [hc] at h
      simpa using h
    · show n ++ "1" = String.mk (n.data ++ natToDigits 1)
      have h1 : natToDigits 1 = ['1'] := by decide
      rw [h1]
      rfl

theorem bumps_form (n : String) :
    ∃ p m, NonDigitTail p ∧ ∀ k, (bumps n k) = ⟨p ++ natToDigits (m + k)⟩ := by
  obtain ⟨p, m, hp, h0⟩ := bumps_zero_form n
  refine ⟨p, m, hp, ?_⟩
  intro k
  induction k with
  | zero => simpa using h0
  | succ k ih =>
    show renameConflictIndentier (bumps n k) = _
    have hmk : m + k + 1 = m + (k + 1) := by omega
    rw [ih, renameConflictIndentier_form hp, hmk]

theorem bumps_injective (n : String) : Function.Injective (bumps n) := by
  obtain ⟨p, m, _, hf⟩ := bumps_form n
  intro a b hab
  rw [hf a, hf b] at hab
  have hd : p ++ natToDigits (m + a) = p ++ natToDigits (m + b) :=
    congrArg String.data hab
  have := natToDigits_injective (List.append_cancel_left hd)
  omega

/-! Correctness and sufficiency of the fuelled collision loop. -/

theorem findSafeName_some_spec {taken : String → Bool} :
    ∀ {fuel : Nat} {n m : String},
      findSafeName taken fuel n = some m → taken m = false := by
  intro fuel
  induction fuel with
  | zero => intro n m h; simp [findSafeName] at h
  | succ fuel ih =>
    intro n m h
    unfold findSafeName at h
    by_cases ht : taken n = true
    · rw [if_pos ht] at h
      exact ih h
    · rw [if_neg ht] at h
      have := Option.some.inj h
      subst this
      exact Bool.eq_false_iff.mpr ht

theorem findSafeName_none_taken {taken : String → Bool} :
    ∀ (fuel : Nat) (n : String), findSafeName taken fuel n = none →
      ∀ k, k + 2 ≤ fuel → taken (bumps n k) = true := by
  intro fuel
  induction fuel with
  | zero => intro n _ k hk; omega
  | succ fuel ih =>
    intro n h k hk
    unfold findSafeName at h
    by_cases ht : taken n = true
    · rw [if_pos ht] at h
      cases k with
      | zero =>
        cases fuel with
        | zero => omega
        | succ f =>
          unfold findSafeName at h
          by_cases hb : taken (renameConflictIndentier n) = true
          · exact hb
          · rw [if_neg hb] at h
            simp at h
      | succ k =>
        rw [bumps_shift]
        exact ih (renameConflictIndentier n) h k (by omega)
    · rw [if_neg ht] at h
      simp at h

theorem findSafeName_isSome {taken : String → Bool} (L : List String)
    (hsupp : ∀ s, taken s = true → s ∈ L) (n : String) :
    findSafeName taken (L.length + 2) n ≠ none := by
  intro hn
  have htk : ∀ k ≤ L.length, bumps n k ∈ L := by
    intro k hk
    exact hsupp _ (findSafeName_none_taken _ _ hn k (by omega))
  set l1 : List String := (List.range (L.length + 1)).map (bumps n) with hl1
  have hnd : l1.Nodup := (List.nodup_range _).map (bumps_injective n)
  have hsub : ∀ s ∈ l1, s ∈ L := by
    intro s hs
    rw [hl1, List.mem_map] at hs
    obtain ⟨k, hk, rfl⟩ := hs
    exact htk k (by simpa using Nat.lt_succ_iff.mp (List.mem_range.mp hk))
  have hlen : l1.length = L.length + 1 := by simp [hl1]
  have h1 : l1.toFinset.card = l1.length := List.toFinset_card_of_nodup hnd
  have h2 : l1.toFinset ⊆ L.toFinset := by
    intro s hs
    rw [List.mem_toFinset] at hs ⊢
    exact hsub s hs
  have h3 : L.toFinset.card ≤ L.length := L.toFinset_card_le
  have := Finset.card_le_card h2
  omega

/-!
Scope/binding model.  The babel parser (external capability, spec 6.1)
supplies a tree of lexical scopes and one binding per declared name.  A
`Binding` is a declaration identifier node: its identity (`bid`, standing
for the declaration node), its current name (mutated by renames), the scope
that declares it, and its trailing comments (mutated by the context
extractor).  `ScopeShape` is the static parent relation between scope ids;
renames do not change it.
-/

structure Binding where
  bid : Nat
  name : String
  scopeId : Nat
  trailingComments : List String
deriving DecidableEq, Repr

structure TreeState where
  bindings : List Binding
deriving DecidableEq, Repr

structure ScopeShape where
  parentOf : List (Nat × Nat)
deriving DecidableEq, Repr

def ScopeShape.parent (sh : ScopeShape) (s : Nat) : Option Nat :=
  sh.parentOf.lookup s

/-- Chain of scopes from `s` to the root, the chain walked by babel's
`Scope.getBinding`; the fuel bounds the walk by the size of the parent
relation so that the definition is total. -/
def scopeChainAux (sh : ScopeShape) : Nat → Nat → List Nat
  | 0, s => [s]
  | fuel + 1, s =>
    s :: (match sh.parent s with
          | none => []
          | some p => scopeChainAux sh fuel p)

def scopeChain (sh : ScopeShape) (s : Nat) : List Nat :=
  scopeChainAux sh sh.parentOf.length s

/-- Embedding of `identifier.scope.hasBinding(name)` (src lines 306, 313):
some scope on the chain from `s` upward declares a binding named `n`. -/
def hasBindingChain (sh : ScopeShape) (st : TreeState) (s : Nat) (n : String) : Bool :=
  (scopeChain sh s).any (fun sc => st.bindings.any (fun b => b.scopeId == sc && b.name == n))

/-- The innermost scope on the chain from `s` that declares `n` — the scope
of the binding that `scope.rename(n, …)` will rewrite. -/
def getBindingScope (sh : ScopeShape) (st : TreeState) (s : Nat) (n : String) : Option Nat :=
  (scopeChain sh s).find? (fun sc => st.bindings.any (fun b => b.scopeId == sc && b.name == n))

/-- Embedding of `identifier.scope.rename(originalName, safeRenamed)`
(src line 321): resolve the binding for `old` from scope `s` upward and
change its declared name to `new`. -/
def renameBinding (sh : ScopeShape) (st : TreeState) (s : Nat) (old new : String) : TreeState :=
  match getBindingScope sh st s old with
  | none => st
  | some sc =>
    ⟨st.bindings.map (fun b =>
      if b.scopeId == sc && b.name == old then { b with name := new } else b)⟩

/-- Embedding of the collision condition of the `while` loops of
`applyRenameMap` (src lines 303-317): with `uniqueNames` the candidate is
rejected when it was already handed out in this run, is bound in the
identifier's scope chain, or is a listed Web/Node global; without
`uniqueNames` only the latter two checks apply. -/
def isTaken (sh : ScopeShape) (st : TreeState) (pathScope : Nat)
    (renames : List String) (uniqueNames : Bool) (n : String) : Bool :=
  if uniqueNames then
    renames.contains n || hasBindingChain sh st pathScope n ||
      WEB_API_NAMES_LIST.contains n
  else
    hasBindingChain sh st pathScope n || WEB_API_NAMES_LIST.contains n

/-- A finite list containing every name on which `isTaken` can be true. -/
def takenSupport (st : TreeState) (renames : List String) : List String :=
  st.bindings.map (fun b => b.name) ++ WEB_API_NAMES_LIST ++ renames

theorem contains_mem {l : List String} {a : String}
    (h : l.contains a = true) : a ∈ l := by
  simpa using h

theorem mem_contains {l : List String} {a : String}
    (h : a ∈ l) : l.contains a = true := by
  simpa using h

theorem hasBindingChain_name_mem {sh : ScopeShape} {st : TreeState}
    {s : Nat} {n : String} (h : hasBindingChain sh st s n = true) :
    n ∈ st.bindings.map (fun b => b.name) := by
  unfold hasBindingChain at h
  rw [List.any_eq_true] at h
  obtain ⟨sc, _, hb⟩ := h
  rw [List.any_eq_true] at hb
  obtain ⟨b, hbm, hbp⟩ := hb
  rw [Bool.and_eq_true, beq_iff_eq, beq_iff_eq] at hbp
  rw [List.mem_map]
  exact ⟨b, hbm, hbp.2⟩

theorem isTaken_support {sh : ScopeShape} {st : TreeState} {pathScope : Nat}
    {renames : List String} {uniqueNames : Bool} {n : String}
    (h : isTaken sh st pathScope renames uniqueNames n = true) :
    n ∈ takenSupport st renames := by
  unfold isTaken at h
  have hcases : n ∈ st.bindings.map (fun b => b.name) ∨
      n ∈ WEB_API_NAMES_LIST ∨ n ∈ renames := by
    by_cases hu : uniqueNames = true
    · rw [if_pos hu] at h
      rcases Bool.or_eq_true_iff.mp h with h1 | h2
      · rcases Bool.or_eq_true_iff.mp h1 with h3 | h4
        · exact Or.inr (Or.inr (contains_mem h3))
        · exact Or.inl (hasBindingChain_name_mem h4)
      · exact Or.inr (Or.inl (contains_mem h2))
    · rw [if_neg hu] at h
      rcases Bool.or_eq_true_iff.mp h with h1 | h2
      · exact Or.inl (hasBindingChain_name_mem h1)
      · exact Or.inr (Or.inl (contains_mem h2))
  unfold takenSupport
  simp only [List.mem_append]
  tauto

/-- The safe name finally applied by `applyRenameMap` for a normalized
candidate `n`: the collision loop run to completion.  The fuel
`takenSupport.length + 2` is provably sufficient
(`findSafeName_isSome`), so the fallback branch is unreachable and the
definition agrees with the source's unbounded `while`. -/
def safeCandidate (sh : ScopeShape) (st : TreeState) (pathScope : Nat)
    (renames : List String) (uniqueNames : Bool) (n : String) : String :=
  match findSafeName (isTaken sh st pathScope renames uniqueNames)
      ((takenSupport st renames).length + 2) n with
  | some m => m
  | none => n

theorem safeCandidate_not_taken (sh : ScopeShape) (st : TreeState)
    (pathScope : Nat) (renames : List String) (uniqueNames : Bool) (n : String) :
    isTaken sh st pathScope renames uniqueNames
      (safeCandidate sh st pathScope renames uniqueNames n) = false := by
  unfold safeCandidate
  have hns := @findSafeName_isSome (isTaken sh st pathScope renames uniqueNames)
    (takenSupport st renames) (fun s hs => isTaken_support hs) n
  cases hfs : findSafeName (isTaken sh st pathScope renames uniqueNames)
      ((takenSupport st renames).length + 2) n with
  | none => exact absurd hfs hns
  | some m => exact findSafeName_some_spec hfs

theorem hasBindingChain_false_of_isTaken_false {sh : ScopeShape}
    {st : TreeState} {pathScope : Nat} {renames : List String}
    {uniqueNames : Bool} {n : String}
    (h : isTaken sh st pathScope renames uniqueNames n = false) :
    hasBindingChain sh st pathScope n = false := by
  unfold isTaken at h
  by_cases hu : uniqueNames = true
  · rw [if_pos hu] at h
    rcases Bool.or_eq_false_iff.mp h with ⟨h1, _⟩
    exact (Bool.or_eq_false_iff.mp h1).2
  · rw [if_neg hu] at h
    exact (Bool.or_eq_false_iff.mp h).1

/-!
The engine's mutable apply-phase state: the tree, the run-wide rename set,
the visited set, and the dirty flag (src lines 91-97).  JS `Set`s are
modelled as duplicate-free insertion-ordered lists.
-/

structure EngineSt where
  tree : TreeState
  renames : List String
  visited : List String
  astDirty : Bool
deriving DecidableEq, Repr

def addToSet (x : String) (l : List String) : List String :=
  if l.contains x then l else l ++ [x]

/-!
A batch item: the static facets of a `NodePath<Identifier>` that the
apply/prepare phases read.  `bid` identifies the declaration node, `name0`
is its name at parse time, `pathScope` the scope of the identifier path
(start of `hasBinding`/`rename` resolution), `declStart` the node start
offset, `scopeIdentity` the position key of the binding's scope
(`getVisitedKey`, src lines 559-568), `groupKey` the grouping-scope key
(`getScopePositionKey`), `boundaryKey` the merge-boundary key
(`getMergeBoundaryKey`, the identity of the nearest enclosing
program/function/class of the identifier path), `scopeSize` the byte span
of the grouping scope (`getScopeSize`), and `skip` the value of
`shouldSkipIdentifierForLLM` (true exactly for a catch parameter whose
catch block body is empty, src lines 1001-1009).
-/

structure IdentInfo where
  bid : Nat
  name0 : String
  pathScope : Nat
  declStart : Int
  scopeIdentity : String
  groupKey : String
  boundaryKey : String
  scopeSize : Int
  skip : Bool
deriving DecidableEq, Repr

/-- Embedding of `getVisitedKey` (src lines 559-568):
`scopeIdentity :: name :: declarationStart`. -/
def visitedKeyOf (it : IdentInfo) (name : String) : String :=
  it.scopeIdentity ++ "::" ++ name ++ "::" ++ toString it.declStart

/-- The live name ofs the identifier node: the binding's current name in the
tree, defaulting to the parse-time name if the binding is absent. -/
def currentName (st : TreeState) (it : IdentInfo) : String :=
  match st.bindings.find? (fun b => b.bid == it.bid) with
  | some b => b.name
  | none => it.name0

/-- Embedding of the body of the `for` loop of `applyRenameMap`
(src lines 292-327) for one identifier: look the current name up in the
returned map (`hasOwnProperty`, else `continue` without marking visited);
a truthy value different from the original is normalized with
`toIdentifier`, pushed through the collision loop, recorded in the rename
set and applied through `scope.rename`; finally the identifier is marked
visited under its original name. -/
def applyOne (sh : ScopeShape) (uniqueNames : Bool)
    (renameMap : List (String × String)) (acc : EngineSt) (it : IdentInfo) :
    EngineSt :=
  let originalName := currentName acc.tree it
  match renameMap.lookup originalName with
  | none => acc
  | some newName =>
    let acc1 :=
      if newName ≠ "" ∧ newName ≠ originalName then
        let safeRenamed := safeCandidate sh acc.tree it.pathScope acc.renames
          uniqueNames (toIdentifier newName)
        { tree := renameBinding sh acc.tree it.pathScope originalName safeRenamed
          renames := addToSet safeRenamed acc.renames
          visited := acc.visited
          astDirty := true }
      else acc
    { acc1 with visited := addToSet (visitedKeyOf it originalName) acc1.visited }

/-- Embedding of `applyRenameMap` (src lines 292-327). -/
def applyRenameMap (sh : ScopeShape) (uniqueNames : Bool)
    (items : List IdentInfo) (renameMap : List (String × String))
    (acc : EngineSt) : EngineSt :=
  items.foldl (applyOne sh uniqueNames renameMap) acc

/-- Per-scope uniqueness of binding names: no two distinct bindings declared
in one scope share a name (spec "Uniqueness per scope").  This is the
structural invariant of babel scopes, whose bindings are keyed by name. -/
def ScopeNamesUnique (st : TreeState) : Prop :=
  st.bindings.Pairwise (fun b1 b2 => b1.scopeId = b2.scopeId → b1.name ≠ b2.name)

instance (st : TreeState) : Decidable (ScopeNamesUnique st) := by
  unfold ScopeNamesUnique
  infer_instance

theorem renameBinding_preserves_unique {sh : ScopeShape} {st : TreeState}
    {s : Nat} {old new : String} (hu : ScopeNamesUnique st)
    (hfree : hasBindingChain sh st s new = false) :
    ScopeNamesUnique (renameBinding sh st s old new) := by
  unfold renameBinding
  cases hg : getBindingScope sh st s old with
  | none => exact hu
  | some sc =>
    have hscmem : sc ∈ scopeChain sh s := List.mem_of_find?_eq_some hg
    have hnotnew : ∀ b ∈ st.bindings, b.scopeId = sc → b.name ≠ new := by
      intro b hb hbs hbn
      unfold hasBindingChain at hfree
      rw [Bool.eq_false_iff] at hfree
      apply hfree
      rw [List.any_eq_true]
      refine ⟨sc, hscmem, ?_⟩
      rw [List.any_eq_true]
      exact ⟨b, hb, by rw [Bool.and_eq_true, beq_iff_eq, beq_iff_eq]; exact ⟨hbs, hbn⟩⟩
    unfold ScopeNamesUnique
    simp only
    rw [List.pairwise_map]
    apply List.Pairwise.imp_of_mem (l := st.bindings) ?_ hu
    intro a b ha hb hR
    by_cases pa : (a.scopeId == sc && a.name == old) = true <;>
      by_cases pb : (b.scopeId == sc && b.name == old) = true
    · rw [Bool.and_eq_true, beq_iff_eq, beq_iff_eq] at pa pb
      exact ((hR (pa.1.trans pb.1.symm)) (pa.2.trans pb.2.symm)).elim
    · simp only [if_pos pa, if_neg pb]
      rw [Bool.and_eq_true, beq_iff_eq, beq_iff_eq] at pa
      intro hseq hneq
      exact hnotnew b hb (pa.1 ▸ hseq.symm) hneq.symm
    · simp only [if_neg pa, if_pos pb]
      rw [Bool.and_eq_true, beq_iff_eq, beq_iff_eq] at pb
      intro hseq hneq
      exact hnotnew a ha (pb.1 ▸ hseq) hneq
    · simp only [if_neg pa, if_neg pb]
      exact hR

theorem applyOne_preserves_unique {sh : ScopeShape} {uniqueNames : Bool}
    {renameMap : List (String × String)} {acc : EngineSt} {it : IdentInfo}
    (hu : ScopeNamesUnique acc.tree) :
    ScopeNamesUnique (applyOne sh uniqueNames renameMap acc it).tree := by
  unfold applyOne
  cases hl : List.lookup (currentName acc.tree it) renameMap with
  | none => simp only [hl]; exact hu
  | some newName =>
    simp only [hl]
    by_cases hcond : newName ≠ "" ∧ newName ≠ currentName acc.tree it
    · simp only [if_pos hcond]
      exact renameBinding_preserves_unique hu
        (hasBindingChain_false_of_isTaken_false
          (safeCandidate_not_taken sh acc.tree it.pathScope acc.renames
            uniqueNames (toIdentifier newName)))
    · simp only [if_neg hcond]
      exact hu

theorem applyRenameMap_preserves_unique {sh : ScopeShape} {uniqueNames : Bool}
    {items : List IdentInfo} {renameMap : List (String × String)}
    {acc : EngineSt} (hu : ScopeNamesUnique acc.tree) :
    ScopeNamesUnique (applyRenameMap sh uniqueNames items renameMap acc).tree := by
  unfold applyRenameMap
  induction items generalizing acc with
  | nil => exact hu
  | cons it items ih => exact ih (applyOne_preserves_unique hu)

/-!
Grouping pipeline (src lines 168-191): group bindings by grouping-scope
key, sort groups by scope size (smallest first, JavaScript's stable sort),
merge small same-boundary groups, split oversized groups into batches.
-/

structure Group where
  identifiers : List IdentInfo
  scopeKey : String
deriving DecidableEq, Repr

/-- Insertion-ordered grouping, the behaviour of the `Map` in
`groupByScopePosition` (src lines 908-926): groups appear in order of first
occurrence of their key, identifiers in encounter order. -/
def insertIntoGroups (it : IdentInfo) : List Group → List Group
  | [] => [⟨[it], it.groupKey⟩]
  | g :: gs =>
    if g.scopeKey == it.groupKey then ⟨g.identifiers ++ [it], g.scopeKey⟩ :: gs
    else g :: insertIntoGroups it gs

def groupByScopePosition (scopes : List IdentInfo) : List Group :=
  scopes.foldl (fun acc it => insertIntoGroups it acc) []

/-- Stable sort by an integer key: decorate with the original index and
insertion-sort by the lexicographic pair, which reproduces JavaScript's
stable `Array.prototype.sort` with a `a - b` style comparator. -/
def insDec {α : Type} (x : (Int × Nat) × α) :
    List ((Int × Nat) × α) → List ((Int × Nat) × α)
  | [] => [x]
  | y :: ys =>
    if x.1.1 < y.1.1 ∨ (x.1.1 = y.1.1 ∧ x.1.2 < y.1.2) then x :: y :: ys
    else y :: insDec x ys

def sortDec {α : Type} : List ((Int × Nat) × α) → List ((Int × Nat) × α)
  | [] => []
  | x :: xs => insDec x (sortDec xs)

def stableSortBy {α : Type} (key : α → Int) (l : List α) : List α :=
  (sortDec (l.enum.map (fun p => ((key p.2, p.1), p.2)))).map (fun p => p.2)

/-- Embedding of the position sort at the end of `findScopes`
(src lines 391-397): bindings ordered by declaration start offset. -/
def findScopesM (idents : List IdentInfo) : List IdentInfo :=
  stableSortBy (fun it => it.declStart) idents

/-- Embedding of `sortGroupsByScopeSize` (src lines 539-545): ascending by
the scope size of the group's first identifier. -/
def sortGroupsByScopeSize (groups : List Group) : List Group :=
  stableSortBy
    (fun g => match g.identifiers with | it :: _ => it.scopeSize | [] => 0)
    groups

/-- Accumulator of `mergeSmallScopeGroups` (src lines 928-999). -/
structure MergeSt where
  merged : List Group
  pendingIdentifiers : List IdentInfo
  pendingScopeKeys : List String
  pendingNames : List String
  pendingBoundaryKey : String
  pendingLastStart : Int
deriving DecidableEq, Repr

/-- The `flushPending` closure (src lines 944-957). -/
def flushPending (st : MergeSt) : MergeSt :=
  if st.pendingIdentifiers.isEmpty then st
  else
    { merged := st.merged ++
        [⟨st.pendingIdentifiers, String.intercalate "__merged__" st.pendingScopeKeys⟩]
      pendingIdentifiers := []
      pendingScopeKeys := []
      pendingNames := []
      pendingBoundaryKey := ""
      pendingLastStart := 0 }

/-- One iteration of the `for (const group of groups)` loop of
`mergeSmallScopeGroups` (src lines 959-996). -/
def mergeStep (maxBatchSize smallScopeMergeLimit : Nat) (st : MergeSt)
    (g : Group) : MergeSt :=
  if ¬ (g.identifiers.length ≤ smallScopeMergeLimit) then
    let st1 := flushPending st
    { st1 with merged := st1.merged ++ [g] }
  else if g.identifiers.any (fun it => it.skip) then
    let st1 := flushPending st
    { st1 with merged := st1.merged ++ [g] }
  else
    let groupBoundaryKey := match g.identifiers with
      | it :: _ => it.boundaryKey
      | [] => ""
    let groupStart : Int := match g.identifiers with
      | it :: _ => it.declStart
      | [] => 0
    let groupNames := g.identifiers.map (fun it => it.name0)
    let hasNameConflict := groupNames.any (fun n => st.pendingNames.contains n)
    let wouldExceedBatchSize := 0 < st.pendingIdentifiers.length ∧
      maxBatchSize < st.pendingIdentifiers.length + g.identifiers.length
    let boundaryMismatch := 0 < st.pendingIdentifiers.length ∧
      groupBoundaryKey ≠ st.pendingBoundaryKey
    let tooFarFromPrevious := 0 < st.pendingIdentifiers.length ∧
      5000 < (groupStart - st.pendingLastStart).natAbs
    let st1 :=
      if hasNameConflict = true ∨ wouldExceedBatchSize ∨ boundaryMismatch ∨
          tooFarFromPrevious then
        flushPending st
      else st
    { merged := st1.merged
      pendingIdentifiers := st1.pendingIdentifiers ++ g.identifiers
      pendingScopeKeys := st1.pendingScopeKeys ++ [g.scopeKey]
      pendingNames := groupNames.foldl (fun acc n => addToSet n acc) st1.pendingNames
      pendingBoundaryKey := groupBoundaryKey
      pendingLastStart := groupStart }

/-- Embedding of `mergeSmallScopeGroups` (src lines 928-999). -/
def mergeSmallScopeGroups (groups : List Group)
    (maxBatchSize smallScopeMergeLimit : Nat) : List Group :=
  if smallScopeMergeLimit = 0 then groups
  else
    (flushPending
      (groups.foldl (mergeStep maxBatchSize smallScopeMergeLimit)
        ⟨[], [], [], [], "", 0⟩)).merged

/-- Embedding of the generator body of `splitOversizedGroupsGenerator`
(src lines 1019-1051) for one group: `i` is the loop index, `acc` the
accumulated `identifiersList`. -/
def splitGroupAux (scopeKey : String) (maxB : Nat) :
    Nat → List IdentInfo → List IdentInfo → List Group
  | i, acc, [] =>
    if acc.isEmpty then [] else [⟨acc, scopeKey ++ "_" ++ toString i⟩]
  | i, acc, x :: rest =>
    if maxB ≤ acc.length then
      if acc.length = 0 then splitGroupAux scopeKey maxB (i + 1) acc rest
      else ⟨acc, scopeKey ++ "_" ++ toString i⟩ ::
        splitGroupAux scopeKey maxB (i + 1) [x] rest
    else splitGroupAux scopeKey maxB (i + 1) (acc ++ [x]) rest

def splitOversizedGroupsGenerator (groups : List Group) (maxB : Nat) :
    List Group :=
  (groups.map (fun g => splitGroupAux g.scopeKey maxB 0 [] g.identifiers)).flatten

/-!
Main loop (src lines 188-361): prepare groups sequentially (visited filter,
low-signal skip, per-name dedup, context extraction with its
comment-clearing side effect), launch up to `batchConcurrency` visitor
calls, apply results in launch order, report progress.
-/

structure LoopCtx where
  sh : ScopeShape
  uniqueNames : Bool
  currentIndex : Nat
  total : Nat
  batchConcurrency : Nat
deriving DecidableEq, Repr

structure LoopSt where
  est : EngineSt
  processed : Nat
  groupIdx : Nat
  progressTrace : List ℚ
deriving DecidableEq, Repr

structure Prepared where
  group : Group
  uniqueItems : List IdentInfo
  names : List String
  context : String
deriving DecidableEq, Repr

/-- Embedding of `hasVisited` (src lines 547-549). -/
def hasVisitedM (est : EngineSt) (it : IdentInfo) : Bool :=
  est.visited.contains (visitedKeyOf it (currentName est.tree it))

/-- Net tree effect of `scopesToString` / `expandScopeIfInsufficientAST`
(src lines 424-425, 439-441, 471-473, 801, 805): every target identifier
gets decorated with a `Rename this …` trailing comment for rendering, and
its `trailingComments` field is then reset to the empty array — which also
erases any comments the identifier carried before. -/
def clearComments (st : TreeState) (items : List IdentInfo) : TreeState :=
  ⟨st.bindings.map (fun b =>
    if items.any (fun it => it.bid == b.bid) then { b with trailingComments := [] }
    else b)⟩

/-- Progress bookkeeping of the three `continue` paths and of a processed
batch: `processedCount += …; groupIndex++; onProgress(processed/total)`. -/
def bumpProgress (ctx : LoopCtx) (g : Group) (st : LoopSt) : LoopSt :=
  let p := st.processed + g.identifiers.length
  { st with
    processed := p
    groupIdx := st.groupIdx + 1
    progressTrace := st.progressTrace ++ [(p : ℚ) / (ctx.total : ℚ)] }

/-- Per-name dedup of `nextPreparedGroup` (src lines 270-277): keep the
first identifier for each current name. -/
def dedupeByName (st : TreeState) (items : List IdentInfo) : List IdentInfo :=
  items.foldl (fun (acc : List IdentInfo) it =>
    if acc.any (fun a => currentName st a == currentName st it) then acc
    else acc ++ [it]) []

/-- Embedding of `nextPreparedGroup` (src lines 227-290).  The context
extractor `contextOf` (the pure result of `scopesToString`) is an external
rendering capability; its tree side effect is `clearComments`. -/
def prepareNext (ctx : LoopCtx)
    (contextOf : TreeState → List IdentInfo → String) :
    LoopSt → List Group → Option Prepared × LoopSt × List Group
  | st, [] => (none, st, [])
  | st, g :: rest =>
    if st.processed < ctx.currentIndex then
      prepareNext ctx contextOf (bumpProgress ctx g st) rest
    else
      let unvisited := g.identifiers.filter (fun it => !(hasVisitedM st.est it))
      if unvisited.isEmpty then
        prepareNext ctx contextOf (bumpProgress ctx g st) rest
      else
        let skipped := unvisited.filter (fun it => it.skip)
        let filtered := unvisited.filter (fun it => !it.skip)
        let visited1 := skipped.foldl
          (fun v it => addToSet (visitedKeyOf it (currentName st.est.tree it)) v)
          st.est.visited
        let st1 := { st with est := { st.est with visited := visited1 } }
        if filtered.isEmpty then
          prepareNext ctx contextOf (bumpProgress ctx g st1) rest
        else
          let uniqueItems := dedupeByName st1.est.tree filtered
          let names := uniqueItems.map (currentName st1.est.tree)
          let context := contextOf st1.est.tree uniqueItems
          let st2 := { st1 with
            est := { st1.est with tree := clearComments st1.est.tree uniqueItems } }
          (some ⟨g, uniqueItems, names, context⟩, st2, rest)

/-- Cohort assembly (src lines 332-339): prepare up to `batchConcurrency`
batches. -/
def takeCohort (ctx : LoopCtx)
    (contextOf : TreeState → List IdentInfo → String) :
    Nat → LoopSt → List Group → List Prepared × LoopSt × List Group
  | 0, st, gs => ([], st, gs)
  | c + 1, st, gs =>
    match prepareNext ctx contextOf st gs with
    | (none, st1, gs1) => ([], st1, gs1)
    | (some p, st1, gs1) =>
      let r := takeCohort ctx contextOf c st1 gs1
      (p :: r.1, r.2.1, r.2.2)

/-- Application of one batch's visitor result (src lines 349-359). -/
def applyBatch (ctx : LoopCtx) (p : Prepared) (m : List (String × String))
    (st : LoopSt) : LoopSt :=
  let est1 := applyRenameMap ctx.sh ctx.uniqueNames p.uniqueItems m st.est
  let processed1 := st.processed + p.group.identifiers.length
  { est := est1
    processed := processed1
    groupIdx := st.groupIdx + 1
    progressTrace := st.progressTrace ++ [(processed1 : ℚ) / (ctx.total : ℚ)] }

/-- Sequential application of a cohort's results in launch order
(src lines 345-359, after the `Promise.all`). -/
def applyCohort (ctx : LoopCtx)
    (pairs : List (Prepared × List (String × String))) (st : LoopSt) : LoopSt :=
  pairs.foldl (fun s pm => applyBatch ctx pm.1 pm.2 s) st

/-- The main `while (true)` loop (src lines 331-360) with a deterministic
visitor function; the fuel is the number of split groups plus one, which
is sufficient since every iteration that recurses has consumed at least
one group. -/
def runLoopF (ctx : LoopCtx)
    (contextOf : TreeState → List IdentInfo → String)
    (visitor : List String → String → List (String × String)) :
    Nat → LoopSt → List Group → LoopSt
  | 0, st, _ => st
  | fuel + 1, st, gs =>
    let r := takeCohort ctx contextOf ctx.batchConcurrency st gs
    if r.1.isEmpty then r.2.1
    else
      runLoopF ctx contextOf visitor fuel
        (applyCohort ctx (r.1.map (fun p => (p, visitor p.names p.context))) r.2.1)
        r.2.2

/-!
Engine entry point `batchVisitAllIdentifiersGrouped` (src lines 77-373),
for a fresh run (no pre-existing resume state, so `currentIndex = 0` and
empty rename/visited sets).  The babel parser and generator are external
capabilities and appear as the `parse` and `printT` parameters; numeric
options keep their JavaScript signedness as `Int`.
-/

structure EngineConfig where
  contextWindowSize : Int
  maxBatchSize : Int
  minInformationScore : Int
  uniqueNames : Bool
  batchConcurrency : Int
  dirtyCheckpointInterval : Int
  smallScopeMergeLimit : Int
deriving DecidableEq, Repr

inductive EngineError where
  | configError (param : String)
  | parseError
deriving DecidableEq, Repr

/-- The synchronous parameter checks at the top of
`batchVisitAllIdentifiersGrouped` (src lines 99-114), in source order. -/
def validateConfig (cfg : EngineConfig) : Option String :=
  if cfg.maxBatchSize ≤ 0 then some "maxBatchSize"
  else if cfg.batchConcurrency ≤ 0 then some "batchConcurrency"
  else if cfg.dirtyCheckpointInterval ≤ 0 then some "dirtyCheckpointInterval"
  else if cfg.smallScopeMergeLimit < 0 then some "smallScopeMergeLimit"
  else none

/-- A parsed program as delivered by the parser capability: the binding
tree, the scope parent relation, and the `findScopes` result (one
`IdentInfo` per deduplicated declaration, in traversal order). -/
structure ParsedProgram where
  tree : TreeState
  shape : ScopeShape
  idents : List IdentInfo
deriving DecidableEq, Repr

def sumSizes (groups : List Group) : Nat :=
  (groups.map (fun g => g.identifiers.length)).sum

/-- The full engine run returning the final loop state (tree, sets and
progress trace); the final `onProgress(1)` of src line 361 is the appended
`1`. -/
def engineRun (parse : String → Option ParsedProgram)
    (contextOf : TreeState → List IdentInfo → String)
    (visitor : List String → String → List (String × String))
    (cfg : EngineConfig) (code : String) : Except EngineError LoopSt :=
  match validateConfig cfg with
  | some p => .error (.configError p)
  | none =>
    match parse code with
    | none => .error .parseError
    | some prog =>
      let scopes := findScopesM prog.idents
      let grouped := groupByScopePosition scopes
      let sorted := sortGroupsByScopeSize grouped
      let mergedG := mergeSmallScopeGroups sorted cfg.maxBatchSize.toNat
        cfg.smallScopeMergeLimit.toNat
      let total := sumSizes mergedG
      let split := splitOversizedGroupsGenerator mergedG cfg.maxBatchSize.toNat
      let ctx : LoopCtx :=
        ⟨prog.shape, cfg.uniqueNames, 0, total, cfg.batchConcurrency.toNat⟩
      let st0 : LoopSt := ⟨⟨prog.tree, [], [], false⟩, 0, 0, []⟩
      let stF := runLoopF ctx contextOf visitor (split.length + 1) st0 split
      .ok { stF with progressTrace := stF.progressTrace ++ [(1 : ℚ)] }

/-- Engine entry point: the returned value is the printed final tree
(src lines 368-372). -/
def batchVisitAllIdentifiersGrouped (parse : String → Option ParsedProgram)
    (printT : TreeState → String)
    (contextOf : TreeState → List IdentInfo → String)
    (visitor : List String → String → List (String × String))
    (cfg : EngineConfig) (code : String) : Except EngineError String :=
  (engineRun parse contextOf visitor cfg code).map (fun st => printT st.est.tree)

/-- Modelled from the spec: the `print(tree)` parser capability of spec 6.1
(realized by `@babel/generator` via `transformFromAstAsync`), which renders
every node together with its attached comments; here each binding renders
as its name followed by its trailing comments. -/
def printTree (st : TreeState) : String :=
  String.intercalate "; "
    (st.bindings.map (fun b =>
      b.name ++ String.join (b.trailingComments.map (fun c => " /*" ++ c ++ "*/"))))

/-! Helper lemmas about the visited/rename sets and identity-valued maps. -/

theorem mem_addToSet_self (x : String) (l : List String) : x ∈ addToSet x l := by
  unfold addToSet
  split
  · next h => exact contains_mem h
  · simp

theorem mem_addToSet_of_mem {a : String} {l : List String} (x : String)
    (h : a ∈ l) : a ∈ addToSet x l := by
  unfold addToSet
  split
  · exact h
  · simp [h]

theorem applyOne_visited_grows {sh : ScopeShape} {u : Bool}
    {m : List (String × String)} {acc : EngineSt} {it : IdentInfo} {a : String}
    (h : a ∈ acc.visited) : a ∈ (applyOne sh u m acc it).visited := by
  unfold applyOne
  cases hl : List.lookup (currentName acc.tree it) m with
  | none => simpa [hl] using h
  | some newName =>
    simp only [hl]
    by_cases hcond : newName ≠ "" ∧ newName ≠ currentName acc.tree it
    · simp only [if_pos hcond]
      exact mem_addToSet_of_mem _ h
    · simp only [if_neg hcond]
      exact mem_addToSet_of_mem _ h

theorem applyRenameMap_visited_grows {sh : ScopeShape} {u : Bool}
    {items : List IdentInfo} {m : List (String × String)} {acc : EngineSt}
    {a : String} (h : a ∈ acc.visited) :
    a ∈ (applyRenameMap sh u items m acc).visited := by
  unfold applyRenameMap
  induction items generalizing acc with
  | nil => exact h
  | cons it items ih => exact ih (applyOne_visited_grows h)

/-- An identity-valued rename map: every defined value equals its key (the
shape the visitor returns when it proposes no change). -/
def IdValuedMap (m : List (String × String)) : Prop :=
  ∀ x y, List.lookup x m = some y → y = x

theorem applyOne_of_idValued {sh : ScopeShape} {u : Bool}
    {m : List (String × String)} {acc : EngineSt} {it : IdentInfo}
    (hm : IdValuedMap m) :
    (applyOne sh u m acc it).tree = acc.tree ∧
    (applyOne sh u m acc it).renames = acc.renames ∧
    (applyOne sh u m acc it).astDirty = acc.astDirty := by
  unfold applyOne
  cases hl : List.lookup (currentName acc.tree it) m with
  | none => simp [hl]
  | some y =>
    have hy := hm _ _ hl
    subst hy
    simp [hl]

theorem applyOne_of_idValued_marks {sh : ScopeShape} {u : Bool}
    {m : List (String × String)} {acc : EngineSt} {it : IdentInfo}
    (hm : IdValuedMap m)
    (hsome : List.lookup (currentName acc.tree it) m ≠ none) :
    visitedKeyOf it (currentName acc.tree it) ∈ (applyOne sh u m acc it).visited := by
  unfold applyOne
  cases hl : List.lookup (currentName acc.tree it) m with
  | none => exact absurd hl hsome
  | some y =>
    have hy := hm _ _ hl
    subst hy
    simp only [hl]
    rw [if_neg (by simp)]
    exact mem_addToSet_self _ _

theorem applyRenameMap_of_idValued {sh : ScopeShape} {u : Bool}
    {items : List IdentInfo} {m : List (String × String)} {acc : EngineSt}
    (hm : IdValuedMap m) :
    (applyRenameMap sh u items m acc).tree = acc.tree ∧
    (applyRenameMap sh u items m acc).renames = acc.renames ∧
    (applyRenameMap sh u items m acc).astDirty = acc.astDirty := by
  unfold applyRenameMap
  induction items generalizing acc with
  | nil => exact ⟨rfl, rfl, rfl⟩
  | cons it items ih =>
    obtain ⟨h1, h2, h3⟩ := @applyOne_of_idValued sh u m acc it hm
    obtain ⟨g1, g2, g3⟩ := @ih (applyOne sh u m acc it)
    exact ⟨g1.trans h1, g2.trans h2, g3.trans h3⟩

theorem applyRenameMap_of_idValued_marks {sh : ScopeShape} {u : Bool}
    {items : List IdentInfo} {m : List (String × String)} {acc : EngineSt}
    (hm : IdValuedMap m) :
    ∀ it ∈ items, List.lookup (currentName acc.tree it) m ≠ none →
      visitedKeyOf it (currentName acc.tree it) ∈
        (applyRenameMap sh u items m acc).visited := by
  induction items generalizing acc with
  | nil => intro it hit; exact absurd hit (by simp)
  | cons it0 items ih =>
    intro it hit hsome
    rw [show applyRenameMap sh u (it0 :: items) m acc =
      applyRenameMap sh u items m (applyOne sh u m acc it0) from rfl]
    rcases List.mem_cons.mp hit with rfl | htail
    · exact applyRenameMap_visited_grows (applyOne_of_idValued_marks hm hsome)
    · have htree := (@applyOne_of_idValued sh u m acc it0 hm).1
      have h2 := @ih (applyOne sh u m acc it0) it htail (by rwa [htree])
      rwa [htree] at h2

/-! Claim theorems: configuration validation (C7, C10). -/

theorem validateConfig_isSome_cases (cfg : EngineConfig)
    (h : cfg.maxBatchSize ≤ 0 ∨ cfg.batchConcurrency ≤ 0 ∨
      cfg.dirtyCheckpointInterval ≤ 0 ∨ cfg.smallScopeMergeLimit < 0) :
    ∃ p, validateConfig cfg = some p := by
  unfold validateConfig
  split_ifs with h1 h2 h3 h4
  · exact ⟨_, rfl⟩
  · exact ⟨_, rfl⟩
  · exact ⟨_, rfl⟩
  · exact ⟨_, rfl⟩
  · exfalso
    rcases h with h | h | h | h <;> omega

theorem engine_error_of_validate {cfg : EngineConfig} {p : String}
    (hv : validateConfig cfg = some p)
    (parse : String → Option ParsedProgram) (printT : TreeState → String)
    (contextOf : TreeState → List IdentInfo → String)
    (visitor : List String → String → List (String × String)) (code : String) :
    batchVisitAllIdentifiersGrouped parse printT contextOf visitor cfg code =
      Except.error (.configError p) := by
  unfold batchVisitAllIdentifiersGrouped engineRun
  rw [hv]
  rfl

/-- Claim C7: whenever `maxBatchSize ≤ 0`, `batchConcurrency ≤ 0` or
`smallScopeMergeLimit < 0`, the engine fails synchronously with a
configuration error; the result is the same for every parser, printer,
context extractor, visitor and input text, so no parsing or other work is
performed. -/
theorem claim_C7 (parse : String → Option ParsedProgram)
    (printT : TreeState → String)
    (contextOf : TreeState → List IdentInfo → String)
    (visitor : List String → String → List (String × String))
    (cfg : EngineConfig) (code : String)
    (h : cfg.maxBatchSize ≤ 0 ∨ cfg.batchConcurrency ≤ 0 ∨
      cfg.smallScopeMergeLimit < 0) :
    ∃ p, validateConfig cfg = some p ∧
      batchVisitAllIdentifiersGrouped parse printT contextOf visitor cfg code =
        Except.error (.configError p) := by
  obtain ⟨p, hp⟩ := validateConfig_isSome_cases cfg (by tauto)
  exact ⟨p, hp, engine_error_of_validate hp parse printT contextOf visitor code⟩

theorem claim_C7_witness :
    ∃ p, validateConfig ⟨200, 0, 16, false, 1, 50, 2⟩ = some p ∧
      batchVisitAllIdentifiersGrouped (fun _ => none) printTree (fun _ _ => "")
        (fun _ _ => []) ⟨200, 0, 16, false, 1, 50, 2⟩ "const a = 1;" =
        Except.error (.configError p) :=
  claim_C7 (fun _ => none) printTree (fun _ _ => "") (fun _ _ => [])
    ⟨200, 0, 16, false, 1, 50, 2⟩ "const a = 1;" (Or.inl (by norm_num))

/-- Claim C10: a non-positive `dirtyCheckpointInterval` is also rejected
synchronously with a configuration error before any parsing — the check at
src lines 105-109 sits with the other validations even though the spec's
interface section does not list this parameter among the validated ones. -/
theorem claim_C10 (parse : String → Option ParsedProgram)
    (printT : TreeState → String)
    (contextOf : TreeState → List IdentInfo → String)
    (visitor : List String → String → List (String × String))
    (cfg : EngineConfig) (code : String)
    (h : cfg.dirtyCheckpointInterval ≤ 0) :
    ∃ p, validateConfig cfg = some p ∧
      batchVisitAllIdentifiersGrouped parse printT contextOf visitor cfg code =
        Except.error (.configError p) := by
  obtain ⟨p, hp⟩ := validateConfig_isSome_cases cfg (by tauto)
  exact ⟨p, hp, engine_error_of_validate hp parse printT contextOf visitor code⟩

theorem claim_C10_witness :
    ∃ p, validateConfig ⟨200, 10, 16, false, 1, 0, 2⟩ = some p ∧
      batchVisitAllIdentifiersGrouped (fun _ => none) printTree (fun _ _ => "")
        (fun _ _ => []) ⟨200, 10, 16, false, 1, 0, 2⟩ "const a = 1;" =
        Except.error (.configError p) :=
  claim_C10 (fun _ => none) printTree (fun _ _ => "") (fun _ _ => [])
    ⟨200, 10, 16, false, 1, 0, 2⟩ "const a = 1;" (by norm_num)

/-!
Concrete scenario S2.  Source text `const a=1; const b=1;`: one Program
scope (id 0, no parent), two bindings `a` (declaration node 0, start
offset 6) and `b` (node 1, start offset 17), both grouped under the
Program position key, neither a skip candidate.  The visitor always
answers `"foo"` for every name.
-/

def progS2 : ParsedProgram :=
  { tree := ⟨[⟨0, "a", 0, []⟩, ⟨1, "b", 0, []⟩]⟩
    shape := ⟨[]⟩
    idents :=
      [⟨0, "a", 0, 6, "Program_1_0_1_22", "Program_1_0_1_22", "Program_1_0_1_22", 22, false⟩,
       ⟨1, "b", 0, 17, "Program_1_0_1_22", "Program_1_0_1_22", "Program_1_0_1_22", 22, false⟩] }

/-- Default-like configuration: `contextWindowSize 200`, `maxBatchSize 10`,
`minInformationScore 16`, `uniqueNames false`, `batchConcurrency 1`,
`dirtyCheckpointInterval 50`, `smallScopeMergeLimit 2`. -/
def cfgDefault : EngineConfig := ⟨200, 10, 16, false, 1, 50, 2⟩

def visitorConstFoo : List String → String → List (String × String) :=
  fun names _ => names.map (fun n => (n, "foo"))

/-- Claim C3: the disambiguation rule is deterministic — a name ending in
digits `d` has the digits replaced by `d + 1`, any other name gets `"1"`
appended — and on `const a=1; const b=1;` with a visitor that always
answers `"foo"` the first binding becomes `foo` and the second `foo1`. -/
theorem claim_C3 :
    (∀ n, endWithNumber n = true →
      renameConflictIndentier n =
        stripTrailingDigits n ++ (⟨natToDigits (getSuffixNumber n + 1)⟩ : String)) ∧
    (∀ n, endWithNumber n = false → renameConflictIndentier n = n ++ "1") ∧
    (engineRun (fun _ => some progS2) (fun _ _ => "") visitorConstFoo cfgDefault
        "const a=1; const b=1;").map
      (fun st => st.est.tree.bindings.map (fun b => b.name)) =
      Except.ok ["foo", "foo1"] := by
  refine ⟨?_, ?_, by rfl⟩
  · intro n h
    unfold renameConflictIndentier
    rw [if_pos h]
    rfl
  · intro n h
    unfold renameConflictIndentier
    rw [if_neg (by simp [h])]

theorem claim_C3_witness :
    renameConflictIndentier "x1" =
      stripTrailingDigits "x1" ++ (⟨natToDigits (getSuffixNumber "x1" + 1)⟩ : String) ∧
    renameConflictIndentier "foo" = "foo" ++ "1" :=
  ⟨claim_C3.1 "x1" (by decide), claim_C3.2.1 "foo" (by decide)⟩

/-- Claim C5 (amended): when the visitor's map is identity-valued
(`applyRenameMap` sees only values equal to their key), the tree, rename
set and dirty flag are untouched and every binding whose name is a key of
the map is marked visited; but for the **empty** map `applyRenameMap` is
the identity — bindings are *not* marked visited, because the
`hasOwnProperty` guard `continue`s before `markVisited`. -/
theorem claim_C5 :
    (∀ (sh : ScopeShape) (u : Bool) (items : List IdentInfo)
        (m : List (String × String)) (acc : EngineSt), IdValuedMap m →
      (applyRenameMap sh u items m acc).tree = acc.tree ∧
      (applyRenameMap sh u items m acc).renames = acc.renames ∧
      (∀ it ∈ items, List.lookup (currentName acc.tree it) m ≠ none →
        visitedKeyOf it (currentName acc.tree it) ∈
          (applyRenameMap sh u items m acc).visited)) ∧
    (∀ (sh : ScopeShape) (u : Bool) (items : List IdentInfo) (acc : EngineSt),
      applyRenameMap sh u items [] acc = acc) := by
  constructor
  · intro sh u items m acc hm
    obtain ⟨h1, h2, _⟩ := @applyRenameMap_of_idValued sh u items m acc hm
    exact ⟨h1, h2, applyRenameMap_of_idValued_marks hm⟩
  · intro sh u items acc
    unfold applyRenameMap
    induction items generalizing acc with
    | nil => rfl
    | cons it items ih =>
      have h1 : applyOne sh u [] acc it = acc := by
        unfold applyOne
        rfl
      rw [List.foldl_cons, h1]
      exact ih acc

/-- Concrete single-binding state used for the C5 and C6 counterexamples:
one Program-scope binding `a` (declaration node 0), fresh engine state. -/
def itA : IdentInfo := ⟨0, "a", 0, 6, "Program_1_0_1_12", "Program_1_0_1_12", "Program_1_0_1_12", 12, false⟩

def accA : EngineSt := ⟨⟨[⟨0, "a", 0, []⟩]⟩, [], [], false⟩

/-- Counterexample to claim C5 as stated: with the empty rename map the
batch's binding is *not* added to the visited set — `applyRenameMap`
returns the state unchanged, so the binding's identity key is missing. -/
theorem claim_C5_counterexample :
    visitedKeyOf itA "a" ∉ (applyRenameMap ⟨[]⟩ false [itA] [] accA).visited := by
  decide

theorem claim_C5_witness :
    (applyRenameMap ⟨[]⟩ false [itA] [("a", "a")] accA).tree = accA.tree ∧
    visitedKeyOf itA "a" ∈ (applyRenameMap ⟨[]⟩ false [itA] [("a", "a")] accA).visited := by
  have h := claim_C5
  refine ⟨(h.1 ⟨[]⟩ false [itA] [("a", "a")] accA ?_).1, ?_⟩
  · intro x y hxy
    cases hx : x == "a" with
    | true =>
      rw [List.lookup, hx] at hxy
      have := Option.some.inj hxy
      rw [← this]
      exact (beq_iff_eq.mp hx).symm
    | false =>
      rw [List.lookup, hx] at hxy
      simp [List.lookup] at hxy
  · have hmark := (h.1 ⟨[]⟩ false [itA] [("a", "a")] accA (by
      intro x y hxy
      cases hx : x == "a" with
      | true =>
        rw [List.lookup, hx] at hxy
        have := Option.some.inj hxy
        rw [← this]
        exact (beq_iff_eq.mp hx).symm
      | false =>
        rw [List.lookup, hx] at hxy
        simp [List.lookup] at hxy)).2.2
    have := hmark itA (by simp) (by decide)
    simpa using this

/-- Claim C6 (amended): a rename-map value that is the **empty string** is
treated as "leave alone" — the state only gains the visited mark — because
the JavaScript truthiness guard `if (newName && …)` rejects `""`; but a
**whitespace-only** value is truthy, so it is normalized by `toIdentifier`
(to `"_"`) and applied as a real rename. -/
theorem claim_C6 :
    (∀ (sh : ScopeShape) (u : Bool) (m : List (String × String))
        (acc : EngineSt) (it : IdentInfo),
      List.lookup (currentName acc.tree it) m = some "" →
      applyOne sh u m acc it =
        { acc with visited := addToSet (visitedKeyOf it (currentName acc.tree it)) acc.visited }) ∧
    ((applyRenameMap ⟨[]⟩ false [itA] [("a", " ")] accA).tree.bindings.map
      (fun b => b.name) = ["_"]) := by
  constructor
  · intro sh u m acc it hl
    unfold applyOne
    simp only [hl]
    rw [if_neg (by simp)]
  · decide

/-- Counterexample to claim C6 as stated: the whitespace-only value `" "`
does **not** leave the binding `a` alone — the binding is renamed to `"_"`
(the `toIdentifier` normalization of whitespace). -/
theorem claim_C6_counterexample :
    (applyRenameMap ⟨[]⟩ false [itA] [("a", " ")] accA).tree.bindings.map
      (fun b => b.name) ≠ ["a"] := by
  decide

theorem claim_C6_witness :
    applyOne ⟨[]⟩ false [("a", "")] accA itA =
      { accA with visited := addToSet (visitedKeyOf itA "a") accA.visited } := by
  have h := claim_C6.1 ⟨[]⟩ false [("a", "")] accA itA (by decide)
  simpa using h

/-!
Merge-boundary analysis (claim C8).  `getMergeBoundaryKey` is evaluated on
`group.identifiers[0]` only (src line 972), so the flush logic compares
only the first binding's boundary per group.
-/

/-- Boundary key of a group's first identifier, the value
`getMergeBoundaryKey(group.identifiers[0])` used by the merger. -/
def groupFirstBoundary (g : Group) : String :=
  match g.identifiers with
  | it :: _ => it.boundaryKey
  | [] => ""

/-- All bindings of this group have the same nearest enclosing
program/function/class (the same merge-boundary key). -/
def GroupBoundaryHomog (g : Group) : Prop :=
  ∀ it ∈ g.identifiers, it.boundaryKey = groupFirstBoundary g

instance (g : Group) : Decidable (GroupBoundaryHomog g) := by
  unfold GroupBoundaryHomog
  infer_instance

/-- Invariant of the merge fold: already-emitted groups are boundary
homogeneous and all pending identifiers carry the pending boundary key. -/
def MergeInv (st : MergeSt) : Prop :=
  (∀ g ∈ st.merged, GroupBoundaryHomog g) ∧
  ∀ it ∈ st.pendingIdentifiers, it.boundaryKey = st.pendingBoundaryKey

theorem flushPending_inv {st : MergeSt} (h : MergeInv st) :
    MergeInv (flushPending st) ∧ (flushPending st).pendingIdentifiers = [] := by
  unfold flushPending
  split
  · next hemp =>
    refine ⟨h, ?_⟩
    exact List.isEmpty_iff.mp hemp
  · next hemp =>
    constructor
    · constructor
      · intro g hg
        rcases List.mem_append.mp hg with h1 | h2
        · exact h.1 g h1
        · rw [List.mem_singleton] at h2
          subst h2
          intro it hit
          cases hl : st.pendingIdentifiers with
          | nil => rw [hl] at hit; simp at hit
          | cons it0 rest =>
            have h0 : it0.boundaryKey = st.pendingBoundaryKey :=
              h.2 it0 (by rw [hl]; simp)
            have hi : it.boundaryKey = st.pendingBoundaryKey := by
              apply h.2
              simpa using hit
            show it.boundaryKey = groupFirstBoundary _
            unfold groupFirstBoundary
            simp only [hl]
            rw [hi, h0]
      · intro it hit
        simp at hit
    · rfl

theorem mergeStep_inv {maxB lim : Nat} {st : MergeSt} {g : Group}
    (h : MergeInv st) (hg : GroupBoundaryHomog g) :
    MergeInv (mergeStep maxB lim st g) := by
  unfold mergeStep
  by_cases h1 : ¬ (g.identifiers.length ≤ lim)
  · rw [if_pos h1]
    obtain ⟨hf, _⟩ := flushPending_inv h
    refine ⟨?_, ?_⟩
    · intro g2 hg2
      rcases List.mem_append.mp hg2 with ha | hb
      · exact hf.1 g2 ha
      · rw [List.mem_singleton] at hb
        subst hb
        exact hg
    · exact hf.2
  · rw [if_neg h1]
    by_cases h2 : g.identifiers.any (fun it => it.skip) = true
    · rw [if_pos h2]
      obtain ⟨hf, _⟩ := flushPending_inv h
      refine ⟨?_, ?_⟩
      · intro g2 hg2
        rcases List.mem_append.mp hg2 with ha | hb
        · exact hf.1 g2 ha
        · rw [List.mem_singleton] at hb
          subst hb
          exact hg
      · exact hf.2
    · rw [if_neg h2]
      simp only
      by_cases hcond : (g.identifiers.map (fun it => it.name0)).any
          (fun n => st.pendingNames.contains n) = true ∨
          (0 < st.pendingIdentifiers.length ∧
            maxB < st.pendingIdentifiers.length + g.identifiers.length) ∨
          (0 < st.pendingIdentifiers.length ∧
            (match g.identifiers with | it :: _ => it.boundaryKey | [] => "") ≠
              st.pendingBoundaryKey) ∨
          (0 < st.pendingIdentifiers.length ∧
            5000 < ((match g.identifiers with | it :: _ => it.declStart | [] => 0) -
              st.pendingLastStart).natAbs)
      · rw [if_pos hcond]
        obtain ⟨hf, hfe⟩ := flushPending_inv h
        refine ⟨hf.1, ?_⟩
        intro it hit
        rw [hfe] at hit
        simp only [List.nil_append] at hit
        have := hg it hit
        rw [this]
        rfl
      · rw [if_neg hcond]
        refine ⟨h.1, ?_⟩
        intro it hit
        rcases List.mem_append.mp hit with ha | hb
        · have hpk := h.2 it ha
          rw [hpk]
          by_cases hpe : 0 < st.pendingIdentifiers.length
          · push_neg at hcond
            have hbm := hcond.2.2.1
            rcases Classical.em ((match g.identifiers with
              | it :: _ => it.boundaryKey | [] => "") = st.pendingBoundaryKey) with
              heq | hne
            · exact heq.symm
            · exact absurd (And.intro hpe hne) (by tauto)
          · have : st.pendingIdentifiers = [] := by
              cases hl : st.pendingIdentifiers with
              | nil => rfl
              | cons a b => rw [hl] at hpe; simp at hpe
            rw [this] at ha
            simp at ha
        · have := hg it hb
          rw [this]
          rfl

theorem merge_foldl_inv {maxB lim : Nat} :
    ∀ (groups : List Group) (st : MergeSt), MergeInv st →
      (∀ g ∈ groups, GroupBoundaryHomog g) →
      MergeInv (groups.foldl (mergeStep maxB lim) st) := by
  intro groups
  induction groups with
  | nil => intro st h _; exact h
  | cons g groups ih =>
    intro st h hgs
    rw [List.foldl_cons]
    exact ih _ (mergeStep_inv h (hgs g (by simp)))
      (fun g2 hg2 => hgs g2 (by simp [hg2]))

theorem mergeSmallScopeGroups_homog {maxB lim : Nat} {groups : List Group}
    (hgs : ∀ g ∈ groups, GroupBoundaryHomog g) :
    ∀ g ∈ mergeSmallScopeGroups groups maxB lim, GroupBoundaryHomog g := by
  unfold mergeSmallScopeGroups
  split
  · exact hgs
  · have hinv : MergeInv (⟨[], [], [], [], "", 0⟩ : MergeSt) := by
      constructor
      · intro g hg; simp at hg
      · intro it hit; simp at hit
    have hfold := @merge_foldl_inv maxB lim groups
      ⟨[], [], [], [], "", 0⟩ hinv hgs
    exact (flushPending_inv hfold).1.1

/-!
Concrete S5 data, modelling
`function one(){const a=1;return a} function two(){const b=2;return b}`.

In babel a function body's `BlockStatement` is not a scope of its own
(`isScope` excludes blocks that are function bodies), so `const a` binds
in function `one`'s scope, whose `scope.path` is the `FunctionDeclaration`
node; and `getGroupingScopePath` sends the `id` of a function declaration
to that same `FunctionDeclaration` path.  Hence `one` and `a` share the
position key of the `FunctionDeclaration one` node (this matches the
repository test "groups identifiers by surrounding scope", which expects
exactly two groups for two such functions).  `getMergeBoundaryKey` stops
its `findParent` walk at the first program/function/class, which for every
one of these bindings is its own function declaration node, so each group
is boundary-homogeneous with the function as boundary.
-/

def identS5One : IdentInfo :=
  ⟨0, "one", 1, 9, "FunctionDeclaration_1_0_1_34", "FunctionDeclaration_1_0_1_34",
    "FunctionDeclaration_1_0_1_34", 34, false⟩

def identS5A : IdentInfo :=
  ⟨1, "a", 1, 21, "FunctionDeclaration_1_0_1_34", "FunctionDeclaration_1_0_1_34",
    "FunctionDeclaration_1_0_1_34", 34, false⟩

def identS5Two : IdentInfo :=
  ⟨2, "two", 2, 44, "FunctionDeclaration_1_35_1_69", "FunctionDeclaration_1_35_1_69",
    "FunctionDeclaration_1_35_1_69", 34, false⟩

def identS5B : IdentInfo :=
  ⟨3, "b", 2, 56, "FunctionDeclaration_1_35_1_69", "FunctionDeclaration_1_35_1_69",
    "FunctionDeclaration_1_35_1_69", 34, false⟩

def groupsS5 : List Group :=
  [⟨[identS5One, identS5A], "FunctionDeclaration_1_0_1_34"⟩,
   ⟨[identS5Two, identS5B], "FunctionDeclaration_1_35_1_69"⟩]

/-- Claim C8: the merger folds a group into the pending batch only when its
first binding's merge-boundary key equals the pending boundary key, and —
since every group delivered by the grouper is boundary-homogeneous (each
binding's position key is its owning scope's node, whose nearest enclosing
program/function/class coincides for all bindings of that scope; function
and class ids key to their own declaration node, where the `findParent`
walk also stops) — every merged batch contains only bindings with one and
the same nearest enclosing program/function/class node.  On the S5
scenario the two function groups, with distinct boundary keys, stay in two
separate batches: at most two LLM calls, never one. -/
theorem claim_C8 :
    (∀ (maxB lim : Nat) (groups : List Group),
      (∀ g ∈ groups, GroupBoundaryHomog g) →
      ∀ g ∈ mergeSmallScopeGroups groups maxB lim, GroupBoundaryHomog g) ∧
    mergeSmallScopeGroups groupsS5 10 2 = groupsS5 := by
  constructor
  · intro maxB lim groups hgs
    exact mergeSmallScopeGroups_homog hgs
  · decide

theorem claim_C8_witness :
    ∀ g ∈ mergeSmallScopeGroups groupsS5 10 2, GroupBoundaryHomog g :=
  claim_C8.1 10 2 groupsS5 (by decide)

/-! Per-scope uniqueness through the whole run (claim C2). -/

theorem clearComments_preserves_unique {st : TreeState} {items : List IdentInfo}
    (hu : ScopeNamesUnique st) : ScopeNamesUnique (clearComments st items) := by
  unfold ScopeNamesUnique clearComments at *
  simp only
  rw [List.pairwise_map]
  apply List.Pairwise.imp ?_ hu
  intro a b hab
  have ha : ∀ x : Binding,
      ((if items.any (fun it => it.bid == x.bid) then { x with trailingComments := [] }
        else x).scopeId = x.scopeId ∧
       (if items.any (fun it => it.bid == x.bid) then { x with trailingComments := [] }
        else x).name = x.name) := by
    intro x
    split <;> exact ⟨rfl, rfl⟩
  rw [(ha a).1, (ha a).2, (ha b).1, (ha b).2]
  exact hab

theorem bumpProgress_est (ctx : LoopCtx) (g : Group) (st : LoopSt) :
    (bumpProgress ctx g st).est = st.est := rfl

theorem prepareNext_unique {ctx : LoopCtx}
    {contextOf : TreeState → List IdentInfo → String} :
    ∀ (gs : List Group) (st : LoopSt), ScopeNamesUnique st.est.tree →
      ScopeNamesUnique (prepareNext ctx contextOf st gs).2.1.est.tree := by
  intro gs
  induction gs with
  | nil => intro st h; exact h
  | cons g rest ih =>
    intro st h
    simp only [prepareNext]
    split
    · exact ih _ h
    · split
      · exact ih _ h
      · split
        · exact ih _ h
        · exact clearComments_preserves_unique h

theorem takeCohort_unique {ctx : LoopCtx}
    {contextOf : TreeState → List IdentInfo → String} :
    ∀ (c : Nat) (st : LoopSt) (gs : List Group), ScopeNamesUnique st.est.tree →
      ScopeNamesUnique (takeCohort ctx contextOf c st gs).2.1.est.tree := by
  intro c
  induction c with
  | zero => intro st gs h; exact h
  | succ c ihc =>
    intro st gs h
    have hprep := @prepareNext_unique ctx contextOf gs st h
    simp only [takeCohort]
    rcases hp : prepareNext ctx contextOf st gs with ⟨opt, st1, gs1⟩
    rw [hp] at hprep
    cases opt with
    | none => exact hprep
    | some p => exact ihc st1 gs1 hprep

theorem applyBatch_unique {ctx : LoopCtx} {p : Prepared}
    {m : List (String × String)} {st : LoopSt}
    (h : ScopeNamesUnique st.est.tree) :
    ScopeNamesUnique (applyBatch ctx p m st).est.tree :=
  applyRenameMap_preserves_unique h

theorem applyCohort_unique {ctx : LoopCtx} :
    ∀ (pairs : List (Prepared × List (String × String))) (st : LoopSt),
      ScopeNamesUnique st.est.tree →
      ScopeNamesUnique (applyCohort ctx pairs st).est.tree := by
  intro pairs
  induction pairs with
  | nil => intro st h; exact h
  | cons pm pairs ih =>
    intro st h
    exact ih _ (applyBatch_unique h)

theorem runLoopF_unique {ctx : LoopCtx}
    {contextOf : TreeState → List IdentInfo → String}
    {visitor : List String → String → List (String × String)} :
    ∀ (fuel : Nat) (st : LoopSt) (gs : List Group),
      ScopeNamesUnique st.est.tree →
      ScopeNamesUnique (runLoopF ctx contextOf visitor fuel st gs).est.tree := by
  intro fuel
  induction fuel with
  | zero => intro st gs h; exact h
  | succ fuel ih =>
    intro st gs h
    simp only [runLoopF]
    split
    · exact takeCohort_unique _ _ _ h
    · exact ih _ _ (applyCohort_unique _ _ (takeCohort_unique _ _ _ h))

theorem engineRun_unique {parse : String → Option ParsedProgram}
    {contextOf : TreeState → List IdentInfo → String}
    {visitor : List String → String → List (String × String)}
    {cfg : EngineConfig} {code : String} {prog : ParsedProgram} {st : LoopSt}
    (hp : parse code = some prog) (hu : ScopeNamesUnique prog.tree)
    (hok : engineRun parse contextOf visitor cfg code = Except.ok st) :
    ScopeNamesUnique st.est.tree := by
  unfold engineRun at hok
  cases hv : validateConfig cfg with
  | some p => rw [hv] at hok; simp at hok
  | none =>
    rw [hv, hp] at hok
    simp only at hok
    have hst := Except.ok.inj hok
    subst hst
    exact runLoopF_unique _ _ _ hu

/-- Claim C2: the collision loop retries the candidate until it is neither
bound in the identifier's scope chain nor a listed built-in global (nor,
with `uniqueNames`, already handed out); consequently, starting from a tree
whose scopes have pairwise-distinct binding names (the structural invariant
of the parsed tree), the engine's final tree still has no two bindings in
one scope sharing a name. -/
theorem claim_C2 :
    (∀ (sh : ScopeShape) (st : TreeState) (pathScope : Nat)
        (renames : List String) (uniqueNames : Bool) (n : String),
      isTaken sh st pathScope renames uniqueNames
        (safeCandidate sh st pathScope renames uniqueNames n) = false) ∧
    (∀ (parse : String → Option ParsedProgram)
        (contextOf : TreeState → List IdentInfo → String)
        (visitor : List String → String → List (String × String))
        (cfg : EngineConfig) (code : String) (prog : ParsedProgram) (st : LoopSt),
      parse code = some prog → ScopeNamesUnique prog.tree →
      engineRun parse contextOf visitor cfg code = Except.ok st →
      ScopeNamesUnique st.est.tree) :=
  ⟨safeCandidate_not_taken,
   fun _ _ _ _ _ _ _ hp hu hok => engineRun_unique hp hu hok⟩

theorem claim_C2_witness :
    isTaken ⟨[]⟩ accA.tree 0 [] false
      (safeCandidate ⟨[]⟩ accA.tree 0 [] false "a") = false ∧
    ∃ st, engineRun (fun _ => some progS2) (fun _ _ => "") visitorConstFoo
        cfgDefault "const a=1; const b=1;" = Except.ok st ∧
      ScopeNamesUnique st.est.tree :=
  ⟨claim_C2.1 ⟨[]⟩ accA.tree 0 [] false "a",
   ⟨_, rfl,
    claim_C2.2 (fun _ => some progS2) (fun _ _ => "") visitorConstFoo cfgDefault
      "const a=1; const b=1;" progS2 _ rfl (by decide) rfl⟩⟩

/-! Progress-callback analysis (claim C9). -/

/-- Every progress value reported so far lies in the unit interval. -/
def TraceOK (st : LoopSt) : Prop :=
  ∀ q ∈ st.progressTrace, 0 ≤ q ∧ q ≤ 1

theorem ratio_bounds {a t : Nat} (h : a ≤ t) :
    0 ≤ (a : ℚ) / (t : ℚ) ∧ (a : ℚ) / (t : ℚ) ≤ 1 := by
  rcases Nat.eq_zero_or_pos t with ht | ht
  · subst ht
    have ha : a = 0 := Nat.le_zero.mp h
    subst ha
    norm_num
  · refine ⟨div_nonneg (by positivity) (by positivity), ?_⟩
    rw [div_le_one (by exact_mod_cast ht)]
    exact_mod_cast h

theorem traceOK_push {st : LoopSt} {q : ℚ} (h : TraceOK st)
    (hq : 0 ≤ q ∧ q ≤ 1) :
    ∀ x ∈ st.progressTrace ++ [q], 0 ≤ x ∧ x ≤ 1 := by
  intro x hx
  rcases List.mem_append.mp hx with h1 | h2
  · exact h x h1
  · rw [List.mem_singleton] at h2
    subst h2
    exact hq

theorem bumpProgress_traceOK {ctx : LoopCtx} {g : Group} {st : LoopSt}
    (h : TraceOK st) (hb : st.processed + g.identifiers.length ≤ ctx.total) :
    TraceOK (bumpProgress ctx g st) := by
  intro q hq
  exact traceOK_push h (ratio_bounds hb) q hq

def cohortSizes (ps : List Prepared) : Nat :=
  (ps.map (fun p => p.group.identifiers.length)).sum

theorem sumSizes_cons (g : Group) (gs : List Group) :
    sumSizes (g :: gs) = g.identifiers.length + sumSizes gs := by
  unfold sumSizes
  simp

theorem prepareNext_trace {ctx : LoopCtx}
    {contextOf : TreeState → List IdentInfo → String} :
    ∀ (gs : List Group) (st : LoopSt) (k : Nat) (opt : Option Prepared)
      (st1 : LoopSt) (gs1 : List Group),
      prepareNext ctx contextOf st gs = (opt, st1, gs1) →
      st.processed + k + sumSizes gs ≤ ctx.total → TraceOK st →
      TraceOK st1 ∧
        (opt = none → st1.processed + k + sumSizes gs1 ≤ ctx.total) ∧
        (∀ p, opt = some p →
          st1.processed + k + p.group.identifiers.length + sumSizes gs1 ≤ ctx.total) := by
  intro gs
  induction gs with
  | nil =>
    intro st k opt st1 gs1 hp hb ht
    simp only [prepareNext] at hp
    obtain ⟨h1, h2, h3⟩ := Prod.mk.injEq _ _ _ _ ▸ hp
    · cases hp
      refine ⟨ht, fun _ => by simpa using hb, fun p hp2 => by simp at hp2⟩
  | cons g rest ih =>
    intro st k opt st1 gs1 hp hb ht
    rw [sumSizes_cons] at hb
    simp only [prepareNext] at hp
    split at hp
    · exact ih _ _ _ _ _ hp (by dsimp only [bumpProgress]; omega)
        (bumpProgress_traceOK ht (by omega))
    · split at hp
      · exact ih _ _ _ _ _ hp (by dsimp only [bumpProgress]; omega)
          (bumpProgress_traceOK ht (by omega))
      · split at hp
        · exact ih _ _ _ _ _ hp (by dsimp only [bumpProgress]; omega)
            (bumpProgress_traceOK ht (by dsimp only; omega))
        · cases hp
          refine ⟨ht, fun hc => by simp at hc, fun p hp2 => ?_⟩
          have := Option.some.inj hp2
          subst this
          simp only
          omega

theorem takeCohort_trace {ctx : LoopCtx}
    {contextOf : TreeState → List IdentInfo → String} :
    ∀ (c : Nat) (st : LoopSt) (gs : List Group) (k : Nat) (ps : List Prepared)
      (st1 : LoopSt) (gs1 : List Group),
      takeCohort ctx contextOf c st gs = (ps, st1, gs1) →
      st.processed + k + sumSizes gs ≤ ctx.total → TraceOK st →
      TraceOK st1 ∧
        st1.processed + k + cohortSizes ps + sumSizes gs1 ≤ ctx.total := by
  intro c
  induction c with
  | zero =>
    intro st gs k ps st1 gs1 hp hb ht
    simp only [takeCohort] at hp
    cases hp
    exact ⟨ht, by simp [cohortSizes]; omega⟩
  | succ c ihc =>
    intro st gs k ps st1 gs1 hp hb ht
    simp only [takeCohort] at hp
    rcases hpp : prepareNext ctx contextOf st gs with ⟨opt, st2, gs2⟩
    rw [hpp] at hp
    obtain ⟨ht2, hnone, hsome⟩ := prepareNext_trace gs st k opt st2 gs2 hpp hb ht
    cases opt with
    | none =>
      simp only at hp
      cases hp
      exact ⟨ht2, by have := hnone rfl; simp [cohortSizes]; omega⟩
    | some p =>
      simp only at hp
      rcases hpt : takeCohort ctx contextOf c st2 gs2 with ⟨ps3, st3, gs3⟩
      rw [hpt] at hp
      cases hp
      have hrec := ihc st2 gs2 (k + p.group.identifiers.length) ps3 st3 gs3 hpt
        (by have := hsome p rfl; omega) ht2
      refine ⟨hrec.1, ?_⟩
      have := hrec.2
      simp only [cohortSizes, List.map_cons, List.sum_cons] at this ⊢
      omega

def pairSizes (pairs : List (Prepared × List (String × String))) : Nat :=
  (pairs.map (fun pm => pm.1.group.identifiers.length)).sum

theorem pairSizes_map_visitor (ps : List Prepared)
    (f : Prepared → List (String × String)) :
    pairSizes (ps.map (fun p => (p, f p))) = cohortSizes ps := by
  induction ps with
  | nil => rfl
  | cons p ps ih =>
    simp only [pairSizes, cohortSizes, List.map_cons, List.sum_cons] at *
    rw [ih]

theorem applyBatch_processed {ctx : LoopCtx} {p : Prepared}
    {m : List (String × String)} {st : LoopSt} :
    (applyBatch ctx p m st).processed = st.processed + p.group.identifiers.length := rfl

theorem applyBatch_traceOK {ctx : LoopCtx} {p : Prepared}
    {m : List (String × String)} {st : LoopSt} (h : TraceOK st)
    (hb : st.processed + p.group.identifiers.length ≤ ctx.total) :
    TraceOK (applyBatch ctx p m st) := by
  intro q hq
  exact traceOK_push h (ratio_bounds hb) q hq

theorem applyCohort_trace {ctx : LoopCtx} :
    ∀ (pairs : List (Prepared × List (String × String))) (st : LoopSt) (k : Nat),
      TraceOK st → st.processed + k + pairSizes pairs ≤ ctx.total →
      TraceOK (applyCohort ctx pairs st) ∧
        (applyCohort ctx pairs st).processed + k ≤ ctx.total := by
  intro pairs
  induction pairs with
  | nil =>
    intro st k ht hb
    refine ⟨ht, ?_⟩
    simp only [pairSizes, List.map_nil, List.sum_nil] at hb
    simpa [applyCohort] using hb
  | cons pm pairs ih =>
    intro st k ht hb
    simp only [pairSizes, List.map_cons, List.sum_cons] at hb
    have h1 : TraceOK (applyBatch ctx pm.1 pm.2 st) :=
      applyBatch_traceOK ht (by omega)
    have h2 := ih (applyBatch ctx pm.1 pm.2 st) k h1
      (by rw [applyBatch_processed]; simp only [pairSizes] at *; omega)
    exact h2

theorem runLoopF_trace {ctx : LoopCtx}
    {contextOf : TreeState → List IdentInfo → String}
    {visitor : List String → String → List (String × String)} :
    ∀ (fuel : Nat) (st : LoopSt) (gs : List Group),
      st.processed + sumSizes gs ≤ ctx.total → TraceOK st →
      TraceOK (runLoopF ctx contextOf visitor fuel st gs) ∧
        (runLoopF ctx contextOf visitor fuel st gs).processed ≤ ctx.total := by
  intro fuel
  induction fuel with
  | zero =>
    intro st gs hb ht
    refine ⟨ht, ?_⟩
    show st.processed ≤ ctx.total
    omega
  | succ fuel ih =>
    intro st gs hb ht
    simp only [runLoopF]
    rcases hc : takeCohort ctx contextOf ctx.batchConcurrency st gs with ⟨ps, st1, gs1⟩
    obtain ⟨ht1, hb1⟩ := takeCohort_trace ctx.batchConcurrency st gs 0 ps st1 gs1 hc
      (by omega) ht
    dsimp only
    split
    · exact ⟨ht1, by omega⟩
    · have hps : pairSizes (ps.map (fun p => (p, visitor p.names p.context))) =
          cohortSizes ps := pairSizes_map_visitor ps (fun p => visitor p.names p.context)
      obtain ⟨ht2, hb2⟩ := @applyCohort_trace ctx
        (ps.map (fun p => (p, visitor p.names p.context))) st1 (sumSizes gs1) ht1
        (by rw [hps]; omega)
      exact ih _ _ hb2 ht2

theorem splitGroupAux_sum_le (scopeKey : String) (maxB : Nat) :
    ∀ (l acc : List IdentInfo) (i : Nat),
      sumSizes (splitGroupAux scopeKey maxB i acc l) ≤ acc.length + l.length := by
  intro l
  induction l with
  | nil =>
    intro acc i
    simp only [splitGroupAux]
    split
    · simp [sumSizes]
    · simp [sumSizes]
  | cons x rest ih =>
    intro acc i
    simp only [splitGroupAux]
    split
    · split
      · have := ih acc (i + 1)
        simp only [List.length_cons]
        omega
      · rw [sumSizes_cons]
        have := ih [x] (i + 1)
        dsimp only
        simp only [List.length_singleton, List.length_cons, List.length_nil] at this ⊢
        omega
    · have := ih (acc ++ [x]) (i + 1)
      simp only [List.length_append, List.length_cons, List.length_nil,
        List.length_singleton] at this ⊢
      omega

theorem split_sum_le (gs : List Group) (maxB : Nat) :
    sumSizes (splitOversizedGroupsGenerator gs maxB) ≤ sumSizes gs := by
  induction gs with
  | nil => simp [splitOversizedGroupsGenerator, sumSizes]
  | cons g rest ih =>
    unfold splitOversizedGroupsGenerator at *
    simp only [List.map_cons, List.flatten_cons]
    rw [sumSizes_cons]
    have h1 : sumSizes (splitGroupAux g.scopeKey maxB 0 [] g.identifiers ++
        (rest.map (fun g2 => splitGroupAux g2.scopeKey maxB 0 [] g2.identifiers)).flatten) =
        sumSizes (splitGroupAux g.scopeKey maxB 0 [] g.identifiers) +
        sumSizes ((rest.map (fun g2 => splitGroupAux g2.scopeKey maxB 0 [] g2.identifiers)).flatten) := by
      simp [sumSizes]
    rw [h1]
    have h2 := splitGroupAux_sum_le g.scopeKey maxB g.identifiers [] 0
    simp only [List.length_nil, Nat.zero_add] at h2
    omega

/-- Claim C9 (amended): every reported progress value is the fraction
`processed / total` and lies in `[0, 1]`, and the last report is always
`1` (the unconditional completion call of src line 361); but the value `1`
is not reported exactly once — the completion call comes *in addition to*
the per-batch report, which already equals `1` for the final batch, as the
counterexample's trace `[1, 1]` shows. -/
theorem claim_C9 (parse : String → Option ParsedProgram)
    (contextOf : TreeState → List IdentInfo → String)
    (visitor : List String → String → List (String × String))
    (cfg : EngineConfig) (code : String) (st : LoopSt)
    (hok : engineRun parse contextOf visitor cfg code = Except.ok st) :
    (∀ q ∈ st.progressTrace, 0 ≤ q ∧ q ≤ 1) ∧
    st.progressTrace.getLast? = some 1 := by
  unfold engineRun at hok
  cases hv : validateConfig cfg with
  | some p => rw [hv] at hok; simp at hok
  | none =>
    rw [hv] at hok
    cases hp : parse code with
    | none => rw [hp] at hok; simp at hok
    | some prog =>
      rw [hp] at hok
      simp only at hok
      have hst := Except.ok.inj hok
      subst hst
      refine ⟨?_, ?_⟩
      · dsimp only
        apply traceOK_push
        · exact (runLoopF_trace _ _ _ (by
            dsimp only
            have := split_sum_le
              (mergeSmallScopeGroups
                (sortGroupsByScopeSize (groupByScopePosition (findScopesM prog.idents)))
                cfg.maxBatchSize.toNat cfg.smallScopeMergeLimit.toNat)
              cfg.maxBatchSize.toNat
            omega)
            (by intro q hq; simp at hq)).1
        · norm_num
      · dsimp only
        exact List.getLast?_concat _

theorem claim_C9_witness :
    ∃ st, engineRun (fun _ => some progS2) (fun _ _ => "") visitorConstFoo
        cfgDefault "const a=1; const b=1;" = Except.ok st ∧
      (∀ q ∈ st.progressTrace, 0 ≤ q ∧ q ≤ 1) ∧
      st.progressTrace.getLast? = some 1 :=
  ⟨_, rfl,
   claim_C9 (fun _ => some progS2) (fun _ _ => "") visitorConstFoo cfgDefault
     "const a=1; const b=1;" _ rfl⟩

/-- Single-binding program `const a = 1;` for the C9 counterexample. -/
def progC9 : ParsedProgram :=
  { tree := ⟨[⟨0, "a", 0, []⟩]⟩
    shape := ⟨[]⟩
    idents := [itA] }

/-- Counterexample to claim C9 as stated: on `const a = 1;` the engine
reports progress `[1, 1]` — the per-batch report for the only batch is
already `1` and the completion report repeats it — so `onProgress` is
invoked with the value `1` twice, not exactly once. -/
theorem claim_C9_counterexample :
    (engineRun (fun _ => some progC9) (fun _ _ => "") visitorConstFoo cfgDefault
        "const a = 1;").map (fun st => st.progressTrace) =
      Except.ok [1, 1] ∧
    ¬ (List.count (1 : ℚ) [1, 1] = 1) := by
  constructor
  · have h : (engineRun (fun _ => some progC9) (fun _ _ => "") visitorConstFoo
        cfgDefault "const a = 1;").map (fun st => st.progressTrace) =
        Except.ok [((1 : Nat) : ℚ) / ((1 : Nat) : ℚ), 1] := rfl
    rw [h]
    norm_num
  · simp [List.count_cons]

/-! Identity-visitor analysis (claim C4). -/

/-- The identity visitor: every name maps to itself. -/
def idVisitor : List String → String → List (String × String) :=
  fun names _ => names.map (fun n => (n, n))

theorem idVisitor_idValued (names : List String) (ctxt : String) :
    IdValuedMap (idVisitor names ctxt) := by
  intro x y hxy
  unfold idVisitor at hxy
  induction names with
  | nil => simp [List.lookup] at hxy
  | cons n rest ih =>
    rw [List.map_cons, List.lookup] at hxy
    cases hx : x == n with
    | true =>
      rw [hx] at hxy
      have := Option.some.inj hxy
      rw [← this]
      exact (beq_iff_eq.mp hx).symm
    | false =>
      rw [hx] at hxy
      exact ih hxy

/-- The final tree differs from the initial one at most by erased trailing
comments (the `scopesToString` rendering side effect). -/
def CommentsOnly (t0 t : TreeState) : Prop :=
  List.Forall₂ (fun b0 b => b = b0 ∨ b = { b0 with trailingComments := [] })
    t0.bindings t.bindings

theorem commentsOnly_refl (t : TreeState) : CommentsOnly t t :=
  List.forall₂_same.mpr (fun _ _ => Or.inl rfl)

theorem commentsOnly_fields {b0 b : Binding}
    (h : b = b0 ∨ b = { b0 with trailingComments := [] }) :
    b.bid = b0.bid ∧ b.name = b0.name ∧ b.scopeId = b0.scopeId := by
  rcases h with rfl | rfl <;> exact ⟨rfl, rfl, rfl⟩

theorem commentsOnly_list_names :
    ∀ {l0 l : List Binding},
      List.Forall₂ (fun b0 b => b = b0 ∨ b = { b0 with trailingComments := [] }) l0 l →
      l.map (fun b => b.name) = l0.map (fun b => b.name) := by
  intro l0 l h
  induction h with
  | nil => rfl
  | cons hr _ ih =>
    simp only [List.map_cons, ih, (commentsOnly_fields hr).2.1]

theorem commentsOnly_names {t0 t : TreeState} (h : CommentsOnly t0 t) :
    t.bindings.map (fun b => b.name) = t0.bindings.map (fun b => b.name) :=
  commentsOnly_list_names h

theorem commentsOnly_list_find :
    ∀ {l0 l : List Binding},
      List.Forall₂ (fun b0 b => b = b0 ∨ b = { b0 with trailingComments := [] }) l0 l →
      ∀ (it : IdentInfo),
        (match l.find? (fun b => b.bid == it.bid) with
          | some b => b.name
          | none => it.name0) =
        (match l0.find? (fun b => b.bid == it.bid) with
          | some b => b.name
          | none => it.name0) := by
  intro l0 l h
  induction h with
  | nil => intro it; rfl
  | cons hr _ ih =>
    intro it
    obtain ⟨hbid, hname, _⟩ := commentsOnly_fields hr
    simp only [List.find?]
    rw [hbid]
    cases hb : _ == it.bid with
    | true => simp [hname]
    | false => simpa using ih it

theorem commentsOnly_currentName {t0 t : TreeState} (h : CommentsOnly t0 t)
    (it : IdentInfo) : currentName t it = currentName t0 it := by
  unfold CommentsOnly at h
  unfold currentName
  exact commentsOnly_list_find h it

theorem commentsOnly_clear {t0 t : TreeState} {items : List IdentInfo}
    (h : CommentsOnly t0 t) : CommentsOnly t0 (clearComments t items) := by
  unfold CommentsOnly clearComments at *
  simp only
  rw [List.forall₂_map_right_iff]
  apply List.Forall₂.imp ?_ h
  intro b0 b hr
  split
  · rcases hr with rfl | rfl
    · exact Or.inr rfl
    · exact Or.inr rfl
  · exact hr

/-- With identity-valued maps the whole cohort application leaves the tree,
the rename set and the dirty flag unchanged. -/
theorem applyCohort_est_of_id {ctx : LoopCtx} :
    ∀ (pairs : List (Prepared × List (String × String))) (st : LoopSt),
      (∀ pm ∈ pairs, IdValuedMap pm.2) →
      (applyCohort ctx pairs st).est.tree = st.est.tree := by
  intro pairs
  induction pairs with
  | nil => intro st _; rfl
  | cons pm pairs ih =>
    intro st hm
    have h1 : (applyBatch ctx pm.1 pm.2 st).est.tree = st.est.tree :=
      (applyRenameMap_of_idValued (hm pm (by simp))).1
    have h2 := ih (applyBatch ctx pm.1 pm.2 st) (fun q hq => hm q (by simp [hq]))
    exact h2.trans h1

theorem prepareNext_commentsOnly {ctx : LoopCtx}
    {contextOf : TreeState → List IdentInfo → String} {t0 : TreeState} :
    ∀ (gs : List Group) (st : LoopSt), CommentsOnly t0 st.est.tree →
      CommentsOnly t0 (prepareNext ctx contextOf st gs).2.1.est.tree := by
  intro gs
  induction gs with
  | nil => intro st h; exact h
  | cons g rest ih =>
    intro st h
    simp only [prepareNext]
    split
    · exact ih _ h
    · split
      · exact ih _ h
      · split
        · exact ih _ h
        · exact commentsOnly_clear h

theorem takeCohort_commentsOnly {ctx : LoopCtx}
    {contextOf : TreeState → List IdentInfo → String} {t0 : TreeState} :
    ∀ (c : Nat) (st : LoopSt) (gs : List Group), CommentsOnly t0 st.est.tree →
      CommentsOnly t0 (takeCohort ctx contextOf c st gs).2.1.est.tree := by
  intro c
  induction c with
  | zero => intro st gs h; exact h
  | succ c ihc =>
    intro st gs h
    have hprep := @prepareNext_commentsOnly ctx contextOf _ gs st h
    simp only [takeCohort]
    rcases hp : prepareNext ctx contextOf st gs with ⟨opt, st1, gs1⟩
    rw [hp] at hprep
    cases opt with
    | none => exact hprep
    | some p => exact ihc st1 gs1 hprep

theorem runLoopF_commentsOnly {ctx : LoopCtx}
    {contextOf : TreeState → List IdentInfo → String} {t0 : TreeState} :
    ∀ (fuel : Nat) (st : LoopSt) (gs : List Group),
      CommentsOnly t0 st.est.tree →
      CommentsOnly t0 (runLoopF ctx contextOf idVisitor fuel st gs).est.tree := by
  intro fuel
  induction fuel with
  | zero => intro st gs h; exact h
  | succ fuel ih =>
    intro st gs h
    simp only [runLoopF]
    rcases hc : takeCohort ctx contextOf ctx.batchConcurrency st gs with ⟨ps, st1, gs1⟩
    have h1 : CommentsOnly t0 st1.est.tree := by
      have := @takeCohort_commentsOnly ctx contextOf _
        ctx.batchConcurrency st gs h
      rwa [hc] at this
    dsimp only
    split
    · exact h1
    · apply ih
      have := @applyCohort_est_of_id ctx
        (ps.map (fun p => (p, idVisitor p.names p.context))) st1
        (by
          intro pm hpm
          rw [List.mem_map] at hpm
          obtain ⟨p, _, rfl⟩ := hpm
          exact idVisitor_idValued p.names p.context)
      rw [this]
      exact h1

theorem engineRun_commentsOnly {parse : String → Option ParsedProgram}
    {contextOf : TreeState → List IdentInfo → String} {cfg : EngineConfig}
    {code : String} {prog : ParsedProgram} {st : LoopSt}
    (hp : parse code = some prog)
    (hok : engineRun parse contextOf idVisitor cfg code = Except.ok st) :
    CommentsOnly prog.tree st.est.tree := by
  unfold engineRun at hok
  cases hv : validateConfig cfg with
  | some p => rw [hv] at hok; simp at hok
  | none =>
    rw [hv, hp] at hok
    simp only at hok
    have hst := Except.ok.inj hok
    subst hst
    exact runLoopF_commentsOnly _ _ _ (commentsOnly_refl prog.tree)

theorem commentsOnly_lists_eq :
    ∀ {l0 l : List Binding},
      List.Forall₂ (fun b0 b => b = b0 ∨ b = { b0 with trailingComments := [] }) l0 l →
      (∀ b ∈ l0, b.trailingComments = []) → l = l0 := by
  intro l0 l h
  induction h with
  | nil => intro _; rfl
  | cons hr htail ih =>
    intro hc
    next b0 b l0t lt =>
    have hb0 : b0.trailingComments = [] := hc b0 (by simp)
    have hb : b = b0 := by
      rcases hr with rfl | rfl
      · rfl
      · cases b0
        simp_all
    rw [hb, ih (fun x hx => hc x (by simp [hx]))]

theorem commentsOnly_eq_of_clean {t0 t : TreeState} (h : CommentsOnly t0 t)
    (hc : ∀ b ∈ t0.bindings, b.trailingComments = []) : t = t0 := by
  unfold CommentsOnly at h
  have hl : t.bindings = t0.bindings := commentsOnly_lists_eq h hc
  cases t0
  cases t
  simp_all

/-- Claim C4 (amended): with the identity visitor the engine never renames —
the final tree's binding names equal the input's and the final tree differs
from the freshly parsed one at most by erased trailing comments on the
binding identifiers that were sent to the context extractor; when no
binding identifier carries a trailing comment the output is exactly the
print of the freshly parsed tree.  The unconditional round-trip equality
fails because `scopesToString` resets `trailingComments` of every batched
identifier, as the separate concrete counterexample shows. -/
theorem claim_C4 (parse : String → Option ParsedProgram)
    (contextOf : TreeState → List IdentInfo → String) (cfg : EngineConfig)
    (code : String) (prog : ParsedProgram) (st : LoopSt)
    (hp : parse code = some prog)
    (hok : engineRun parse contextOf idVisitor cfg code = Except.ok st) :
    CommentsOnly prog.tree st.est.tree ∧
    st.est.tree.bindings.map (fun b => b.name) =
      prog.tree.bindings.map (fun b => b.name) ∧
    ((∀ b ∈ prog.tree.bindings, b.trailingComments = []) →
      ∀ printT : TreeState → String,
        batchVisitAllIdentifiersGrouped parse printT contextOf idVisitor cfg code =
          Except.ok (printT prog.tree)) := by
  have hco := engineRun_commentsOnly hp hok
  refine ⟨hco, commentsOnly_names hco, ?_⟩
  intro hclean printT
  unfold batchVisitAllIdentifiersGrouped
  rw [hok]
  simp only [Except.map]
  rw [commentsOnly_eq_of_clean hco hclean]

/-- Concrete program for the C4 counterexample: one binding `a` whose
declaration identifier carries the trailing comment `note` — e.g. the
parameter in `export default function (a /*note*/) { return a; }`, where
babel attaches the comment only to the identifier node `a` (there is no
following sibling node to carry it as a leading comment). -/
def progC4 : ParsedProgram :=
  { tree := ⟨[⟨0, "a", 0, ["note"]⟩]⟩
    shape := ⟨[]⟩
    idents := [itA] }

/-- Counterexample to claim C4 as stated: on the commented program the
identity-visitor run returns `"a"`, while printing the freshly parsed tree
gives `"a /*note*/"` — the original trailing comment of the batched
identifier was erased by the context extractor, so the output differs from
the parse/print round-trip and the tree's comments were changed. -/
theorem claim_C4_counterexample :
    batchVisitAllIdentifiersGrouped (fun _ => some progC4) printTree (fun _ _ => "")
      idVisitor cfgDefault "const a /*note*/ = 1;" = Except.ok "a" ∧
    printTree progC4.tree = "a /*note*/" ∧
    ("a" : String) ≠ "a /*note*/" :=
  ⟨rfl, rfl, by decide⟩

theorem claim_C4_witness :
    ∃ st, engineRun (fun _ => some progC9) (fun _ _ => "") idVisitor cfgDefault
        "const a = 1;" = Except.ok st ∧
      st.est.tree.bindings.map (fun b => b.name) =
        progC9.tree.bindings.map (fun b => b.name) ∧
      batchVisitAllIdentifiersGrouped (fun _ => some progC9) printTree
        (fun _ _ => "") idVisitor cfgDefault "const a = 1;" =
        Except.ok (printTree progC9.tree) := by
  refine ⟨_, rfl, ?_, ?_⟩
  · exact (claim_C4 (fun _ => some progC9) (fun _ _ => "") cfgDefault
      "const a = 1;" progC9 _ rfl rfl).2.1
  · exact (claim_C4 (fun _ => some progC9) (fun _ _ => "") cfgDefault
      "const a = 1;" progC9 _ rfl rfl).2.2 (by decide) printTree

/-!
Determinism (claim C1).  The only nondeterminism in the engine is the
visitor: LLM answers vary between calls, which we model by a visitor
*relation* `V names context result`.  Cohort assembly, context extraction
and the application of results in launch order (the `Promise.all` indexing
of src lines 345-359) are deterministic functions of the state.  `RunR` is
the resulting run relation of the main loop.
-/

/-- One possible cohort of visitor answers: pointwise related to the
prepared batches. -/
def cohortAnswers (V : List String → String → List (String × String) → Prop)
    (ps : List Prepared) (ms : List (List (String × String))) : Prop :=
  List.Forall₂ (fun p m => V p.names p.context m) ps ms

/-- Run relation of the main loop with a (possibly nondeterministic)
visitor relation `V`; mirrors `runLoopF` step for step. -/
inductive RunR (ctx : LoopCtx) (contextOf : TreeState → List IdentInfo → String)
    (V : List String → String → List (String × String) → Prop) :
    Nat → LoopSt → List Group → LoopSt → Prop
  | fuelOut (st : LoopSt) (gs : List Group) : RunR ctx contextOf V 0 st gs st
  | done (fuel : Nat) (st : LoopSt) (gs : List Group)
      (h : (takeCohort ctx contextOf ctx.batchConcurrency st gs).1 = []) :
      RunR ctx contextOf V (fuel + 1) st gs
        (takeCohort ctx contextOf ctx.batchConcurrency st gs).2.1
  | step (fuel : Nat) (st : LoopSt) (gs : List Group)
      (ms : List (List (String × String))) (out : LoopSt)
      (hne : (takeCohort ctx contextOf ctx.batchConcurrency st gs).1 ≠ [])
      (hms : cohortAnswers V (takeCohort ctx contextOf ctx.batchConcurrency st gs).1 ms)
      (hrec : RunR ctx contextOf V fuel
        (applyCohort ctx
          ((takeCohort ctx contextOf ctx.batchConcurrency st gs).1.zip ms)
          (takeCohort ctx contextOf ctx.batchConcurrency st gs).2.1)
        (takeCohort ctx contextOf ctx.batchConcurrency st gs).2.2 out) :
      RunR ctx contextOf V (fuel + 1) st gs out

/-- The visitor relation is deterministic: one answer per (names, context). -/
def DeterministicVisitor
    (V : List String → String → List (String × String) → Prop) : Prop :=
  ∀ ns c m1 m2, V ns c m1 → V ns c m2 → m1 = m2

theorem cohortAnswers_det
    {V : List String → String → List (String × String) → Prop}
    (hV : DeterministicVisitor V) :
    ∀ {ps : List Prepared} {ms1 ms2 : List (List (String × String))},
      cohortAnswers V ps ms1 → cohortAnswers V ps ms2 → ms1 = ms2 := by
  intro ps ms1 ms2 h1 h2
  unfold cohortAnswers at h1 h2
  induction h1 generalizing ms2 with
  | nil =>
    cases h2
    rfl
  | cons hr _ ih =>
    cases h2 with
    | cons hr2 htail2 =>
      rw [hV _ _ _ _ hr hr2, ih htail2]

theorem runR_det {ctx : LoopCtx}
    {contextOf : TreeState → List IdentInfo → String}
    {V : List String → String → List (String × String) → Prop}
    (hV : DeterministicVisitor V) :
    ∀ {fuel : Nat} {st : LoopSt} {gs : List Group} {o1 o2 : LoopSt},
      RunR ctx contextOf V fuel st gs o1 → RunR ctx contextOf V fuel st gs o2 →
      o1 = o2 := by
  intro fuel st gs o1 o2 h1
  induction h1 generalizing o2 with
  | fuelOut st gs =>
    intro h2
    cases h2
    rfl
  | done fuel st gs h =>
    intro h2
    cases h2 with
    | done _ _ _ _ => rfl
    | step _ _ _ ms _ hne _ _ => exact absurd h hne
  | step fuel st gs ms out hne hms hrec ih =>
    intro h2
    cases h2 with
    | done _ _ _ h => exact absurd h hne
    | step _ _ _ ms2 _ hne2 hms2 hrec2 =>
      have hmeq := cohortAnswers_det hV hms hms2
      subst hmeq
      exact ih hrec2

/-- Full engine run relation for a fresh run: the deterministic
validation/parse/group/sort/merge/split pipeline of `engineRun`, with the
loop replaced by `RunR` and the result printed by the printer capability. -/
def EngineRunR (parse : String → Option ParsedProgram)
    (printT : TreeState → String)
    (contextOf : TreeState → List IdentInfo → String)
    (V : List String → String → List (String × String) → Prop)
    (cfg : EngineConfig) (code : String) (out : String) : Prop :=
  validateConfig cfg = none ∧
  ∃ prog, parse code = some prog ∧
  ∃ stF,
    (let scopes := findScopesM prog.idents
     let grouped := groupByScopePosition scopes
     let sorted := sortGroupsByScopeSize grouped
     let mergedG := mergeSmallScopeGroups sorted cfg.maxBatchSize.toNat
       cfg.smallScopeMergeLimit.toNat
     let total := sumSizes mergedG
     let split := splitOversizedGroupsGenerator mergedG cfg.maxBatchSize.toNat
     let ctx : LoopCtx :=
       ⟨prog.shape, cfg.uniqueNames, 0, total, cfg.batchConcurrency.toNat⟩
     let st0 : LoopSt := ⟨⟨prog.tree, [], [], false⟩, 0, 0, []⟩
     RunR ctx contextOf V (split.length + 1) st0 split stF) ∧
    out = printT stF.est.tree

/-- Claim C1: with `batchConcurrency = 1`, a deterministic visitor and no
pre-existing resume state, any two runs of the engine on the same
parseable input produce byte-identical output strings.  (The proof shows
that the cohort stream, the contexts and the apply order are deterministic
functions of the state, so the only freedom is the visitor's answers,
removed by `DeterministicVisitor`.) -/
theorem claim_C1 (parse : String → Option ParsedProgram)
    (printT : TreeState → String)
    (contextOf : TreeState → List IdentInfo → String)
    (V : List String → String → List (String × String) → Prop)
    (cfg : EngineConfig) (code : String) (o1 o2 : String)
    (hV : DeterministicVisitor V)
    (_hconc : cfg.batchConcurrency = 1)
    (h1 : EngineRunR parse printT contextOf V cfg code o1)
    (h2 : EngineRunR parse printT contextOf V cfg code o2) : o1 = o2 := by
  obtain ⟨_, prog1, hp1, st1, hr1, ho1⟩ := h1
  obtain ⟨_, prog2, hp2, st2, hr2, ho2⟩ := h2
  have hprog : prog1 = prog2 := Option.some.inj (hp1.symm.trans hp2)
  subst hprog
  simp only at hr1 hr2
  have hst : st1 = st2 := runR_det hV hr1 hr2
  rw [ho1, ho2, hst]

/-- Empty program used for the C1 witness. -/
def progEmptyC1 : ParsedProgram := { tree := ⟨[]⟩, shape := ⟨[]⟩, idents := [] }

/-- Visitor relation of the always-empty-map visitor; deterministic. -/
def emptyMapVisitorRel :
    List String → String → List (String × String) → Prop :=
  fun _ _ m => m = []

theorem claim_C1_witness :
    ∃ out : String,
      EngineRunR (fun _ => some progEmptyC1) printTree (fun _ _ => "")
        emptyMapVisitorRel cfgDefault "" out ∧
      ∀ out2, EngineRunR (fun _ => some progEmptyC1) printTree (fun _ _ => "")
        emptyMapVisitorRel cfgDefault "" out2 → out2 = out := by
  have hV : DeterministicVisitor emptyMapVisitorRel := by
    intro ns c m1 m2 h1 h2
    rw [h1, h2]
  refine ⟨printTree progEmptyC1.tree,
    ⟨rfl, progEmptyC1, rfl,
      ⟨⟨⟨⟨[]⟩, [], [], false⟩, 0, 0, []⟩, ?_, ?_⟩⟩, ?_⟩
  · exact RunR.done 0 _ _ rfl
  · rfl
  · intro out2 h2
    exact claim_C1 (fun _ => some progEmptyC1) printTree (fun _ _ => "")
      emptyMapVisitorRel cfgDefault "" out2 (printTree progEmptyC1.tree) hV rfl h2
      ⟨rfl, progEmptyC1, rfl,
        ⟨⟨⟨⟨[]⟩, [], [], false⟩, 0, 0, []⟩, RunR.done 0 _ _ rfl, rfl⟩⟩

end Humanify
